import Mathlib

/-!
# Verification of the statistics engine of canu (`src/AS_UTL/stddev.H`)

The C++ code is embedded shallowly.

* `double` values are taken in exact arithmetic: they live in an arbitrary linearly ordered
  field `K` (the rationals for evaluation, the reals for the mathematical reading).  The library
  function `sqrt` is not part of the repository and is passed as a parameter `sqrt : K → K`.
* `uint32` and `uint64` values are natural numbers, truncated explicitly with `% 2 ^ 32` and
  `% 2 ^ 64` at every arithmetic operation of the source.
* The element type `TT` of the batch estimators is a signed exact integer type, `Int`.
* `exit(1)` after an error report is modelled as the result `none`.
* The two heap arrays of `histogramStatistics` are memories `Nat → Nat` with an explicit
  capacity.  `add` and `finalizeData` give the effect of the statements on that memory;
  `addChecked` and `finalizeDataChecked` are the same calls with the array bounds, and return
  `none` when an access falls outside its allocation (or when a loop does not terminate).
* `std::sort` on a vector is modelled by `List.insertionSort (· ≤ ·)`; on a linear order the
  ascending sort of a sequence is unique, so the choice of algorithm is unobservable.
-/

namespace Canu

/-! ## `stdDev`: the online (Welford) accumulator -/

/-- The three private members of `class stdDev`: `_mn`, `_sn` and the `uint32` `_nn`, whose
top bit is the "finalized" flag. -/
structure stdDev (K : Type) where
  _mn : K
  _sn : K
  _nn : Nat

namespace stdDev

variable {K : Type} [LinearOrderedField K]

/-- The constructor `stdDev(double mn=0.0, double sn=0.0, uint32 nn=0)`. -/
def new (mn : K := 0) (sn : K := 0) (nn : Nat := 0) : stdDev K :=
  { _mn := mn, _sn := sn, _nn := nn }

/-- The test `_nn & 0x80000000` used throughout the class. -/
def finalized (s : stdDev K) : Bool := s._nn &&& 0x80000000 != 0

/-- The method `insert(TT val)`; `none` is the fatal exit. -/
def insert (s : stdDev K) (val : K) : Option (stdDev K) :=
  let m0 := s._mn
  let s0 := s._sn
  let n0 : Nat := (s._nn + 1) % 2 ^ 32
  if s._nn = 0x7fffffff then none
  else if s._nn &&& 0x80000000 ≠ 0 then none
  else
    let mn := m0 + (val - m0) / (n0 : K)
    let sn := s0 + (val - m0) * (val - mn)
    some { _mn := mn, _sn := sn, _nn := n0 }

/-- The method `remove(double val)`; `none` is the fatal exit. -/
def remove (s : stdDev K) (val : K) : Option (stdDev K) :=
  let n0 : Nat := (s._nn + 2 ^ 32 - 1) % 2 ^ 32
  let m0 : K := if n0 = 0 then 0 else ((s._nn : K) * s._mn - val) / (n0 : K)
  let s0 := s._sn - (val - m0) * (val - s._mn)
  if s._nn = 0 then none
  else if s._nn &&& 0x80000000 ≠ 0 then none
  else some { _mn := m0, _sn := s0, _nn := n0 }

/-- The method `size()`. -/
def size (s : stdDev K) : Nat := s._nn &&& 0x7fffffff

/-- The method `mean()`. -/
def mean (s : stdDev K) : K := s._mn

/-- The method `variance()`. -/
def variance (s : stdDev K) : K :=
  if s._nn &&& 0x80000000 ≠ 0 then s._sn * s._sn
  else if s._nn < 2 then 0 else s._sn / ((s._nn - 1 : Nat) : K)

/-- The method `stddev()`. -/
def stddev (sqrt : K → K) (s : stdDev K) : K :=
  if s._nn &&& 0x80000000 ≠ 0 then s._sn
  else sqrt s.variance

/-- The method `finalize()`. -/
def finalize (sqrt : K → K) (s : stdDev K) : stdDev K :=
  { _mn := s._mn, _sn := s.stddev sqrt, _nn := (s._nn ||| 0x80000000) % 2 ^ 32 }

/-- Inserting the values of a sequence one by one, stopping at the first fatal exit. -/
def insertAll (s : stdDev K) (xs : List K) : Option (stdDev K) :=
  xs.foldlM insert s

/-- Spec side: the states reachable from the default-constructed accumulator by successful
`insert` and `remove` calls. -/
inductive Reachable : stdDev K → Prop
  | init : Reachable (new : stdDev K)
  | insert (s t : stdDev K) (v : K) : Reachable s → s.insert v = some t → Reachable t
  | remove (s t : stdDev K) (v : K) : Reachable s → s.remove v = some t → Reachable t

end stdDev


/-! ## The offline estimators -/

section estimators

variable {K : Type} [LinearOrderedField K]

/-- The call `sort(dist.begin(), dist.end())`, skipped when `isSorted` is set. -/
def sortUnless (isSorted : Bool) (dist : List Int) : List Int :=
  if isSorted = false then dist.insertionSort (· ≤ ·) else dist

/-- The function `computeStdDev`; the result is the pair of the output parameters
`(mean, stddev)`.  The two `for` loops over `dist` are folds over the (sorted) list; the
diagnostic `fprintf(stderr, ...)` has no effect on the results and is left out. -/
def computeStdDev (sqrt : K → K) (dist : List Int) (isSorted : Bool := false) : K × K :=
  if dist.length = 0 then (0, 0)
  else
    let dist := sortUnless isSorted dist
    let median := dist.getD (1 * dist.length / 2) 0
    let oneThird := dist.getD (1 * dist.length / 3) 0
    let twoThird := dist.getD (2 * dist.length / 3) 0
    let approxStd := max (median - oneThird) (twoThird - median)
    let biggest := median + approxStd * 5
    let smallest := median - approxStd * 5
    let acc : Nat × K := dist.foldl
      (fun a x => if smallest ≤ x ∧ x ≤ biggest then (a.1 + 1, a.2 + (x : K)) else a) (0, 0)
    let numSamples := acc.1
    if numSamples = 0 then (acc.2, 0)
    else
      let mean := acc.2 / (numSamples : K)
      let stddev : K := dist.foldl
        (fun a x => if smallest ≤ x ∧ x ≤ biggest then a + ((x : K) - mean) * ((x : K) - mean)
          else a) 0
      if numSamples > 1 then (mean, sqrt (stddev / ((numSamples - 1 : Nat) : K)))
      else (mean, stddev)

/-- The four local variables of the scan in `computeMode`; the counters are `uint32`. -/
structure modeScan where
  modeCnt : Nat
  modeVal : Int
  modeTmpCnt : Nat
  modeTmpVal : Int

/-- The comparison `if (modeCnt < modeTmpCnt)` with its two assignments. -/
def modeScan.commit (st : modeScan) : modeScan :=
  if st.modeCnt < st.modeTmpCnt then
    { st with modeCnt := st.modeTmpCnt, modeVal := st.modeTmpVal }
  else st

/-- One iteration of the `for` loop of `computeMode` on the element `x = dist[x]`. -/
def modeScan.step (st : modeScan) (x : Int) : modeScan :=
  let st1 : modeScan :=
    if x ≠ st.modeTmpVal then
      { st.commit with modeTmpCnt := 1, modeTmpVal := x }
    else st
  { st1 with modeTmpCnt := (st1.modeTmpCnt + 1) % 2 ^ 32 }

/-- The function `computeMode`; the result is the output parameter `mode`. -/
def computeMode (dist : List Int) (isSorted : Bool := false) : Int :=
  if dist.length = 0 then 0
  else
    let dist := sortUnless isSorted dist
    let st := dist.foldl modeScan.step
      { modeCnt := 0, modeVal := 0, modeTmpCnt := 0, modeTmpVal := 0 }
    st.commit.modeVal

/-- The function `computeMedianAbsoluteDeviation`; the result is the pair of the output
parameters `(median, mad)`.  The `push_back` loop is a fold appending to `m`. -/
def computeMedianAbsoluteDeviation (dist : List Int) (isSorted : Bool := false) : Int × Int :=
  if dist.length = 0 then (0, 0)
  else
    let dist := sortUnless isSorted dist
    let median := dist.getD (dist.length / 2) 0
    let m : List Int := dist.foldl
      (fun m x => if x < median then m ++ [median - x] else m ++ [x - median]) []
    let m := m.insertionSort (· ≤ ·)
    (median, m.getD (m.length / 2) 0)

/-- Proof side: the count that the scan of `computeMode` has given to the value `v` once the
sorted prefix `p` is processed: one more than its number of occurrences, except for a run of
zeros that starts the input, which is counted once per element. -/
def scanWeight (p : List Int) (v : Int) : Nat :=
  p.count v + (if v = 0 ∧ p.head? = some 0 then 0 else 1)

/-- Proof side: the loop invariant of the scan of `computeMode` after the non-empty sorted
prefix `p`: the current run is the run of the largest value, it carries its weight, and the
best-so-far is the smallest value of maximal weight among the completed runs. -/
def modeScan.inv (p : List Int) (st : modeScan) : Prop :=
  st.modeTmpVal ∈ p ∧ (∀ v ∈ p, v ≤ st.modeTmpVal) ∧
  st.modeTmpCnt = scanWeight p st.modeTmpVal ∧
  (∀ v ∈ p, v ≠ st.modeTmpVal → scanWeight p v ≤ st.modeCnt) ∧
  (st.modeCnt = 0 ∨
    (st.modeVal ∈ p ∧ st.modeVal ≠ st.modeTmpVal ∧ scanWeight p st.modeVal = st.modeCnt ∧
      ∀ v ∈ p, v < st.modeVal → scanWeight p v < st.modeCnt))

/-- The function `computeExponentialMovingAverage`; `none` is a failed `assert`. -/
def computeExponentialMovingAverage (alpha ema value : K) : Option K :=
  if ¬ (0 ≤ alpha) then none
  else if ¬ (alpha ≤ 1) then none
  else some (alpha * value + (1 - alpha) * ema)

/-- Spec side: the inclusion bounds `(med - 5*approxStd, med + 5*approxStd)` of an input, with
`s` its ascending sort of length `n`, `med = s[n/2]` and
`approxStd = max(med - s[n/3], s[2n/3] - med)`. -/
def trimBounds (xs : List Int) : Int × Int :=
  let s := xs.insertionSort (· ≤ ·)
  let n := xs.length
  let med := s.getD (n / 2) 0
  let approxStd := max (med - s.getD (n / 3) 0) (s.getD (2 * n / 3) 0 - med)
  (med - 5 * approxStd, med + 5 * approxStd)

/-- Spec side: the sub-multiset of the inputs that lie within the inclusion bounds. -/
def keptSample (xs : List Int) : List Int :=
  xs.filter (fun x => (trimBounds xs).1 ≤ x ∧ x ≤ (trimBounds xs).2)

end estimators

/-! ## `genericStatistics` -/

/-- The members of `class genericStatistics` over `TT = Int`.  The vectors `_histogram` and
`_Nstatistics` are never written by any method and are left out. -/
structure genericStatistics (K : Type) where
  _finalized : Bool
  _data : List Int
  _mean : K
  _stddev : K
  _mode : Int
  _median : Int
  _mad : Int

namespace genericStatistics

variable {K : Type} [LinearOrderedField K]

/-- The constructor `genericStatistics()`. -/
def new : genericStatistics K :=
  { _finalized := false, _data := [], _mean := 0, _stddev := 0, _mode := 0, _median := 0,
    _mad := 0 }

/-- The method `add(TT data)`. -/
def add (s : genericStatistics K) (data : Int) : genericStatistics K :=
  { s with _finalized := false, _data := s._data ++ [data] }

/-- The method `finalizeData()`. -/
def finalizeData (sqrt : K → K) (s : genericStatistics K) : genericStatistics K :=
  if s._finalized = true then s
  else
    let ms : K × K := computeStdDev sqrt s._data
    let mode := computeMode s._data
    let mm := computeMedianAbsoluteDeviation s._data
    { s with _mean := ms.1, _stddev := ms.2, _mode := mode, _median := mm.1, _mad := mm.2,
             _finalized := true }

/-- The value returned by the method `numberOfObjects()`. -/
def numberOfObjects (sqrt : K → K) (s : genericStatistics K) : Nat :=
  (s.finalizeData sqrt)._data.length

/-- The value returned by the method `mean()`. -/
def mean (sqrt : K → K) (s : genericStatistics K) : K := (s.finalizeData sqrt)._mean

/-- The value returned by the method `stddev()`. -/
def stddev (sqrt : K → K) (s : genericStatistics K) : K := (s.finalizeData sqrt)._stddev

/-- The value returned by the method `median()`. -/
def median (sqrt : K → K) (s : genericStatistics K) : Int := (s.finalizeData sqrt)._median

/-- The value returned by the method `mad()`. -/
def mad (sqrt : K → K) (s : genericStatistics K) : Int := (s.finalizeData sqrt)._mad

/-- Feeding a sequence of values with `add`, one call per value. -/
def addAll (s : genericStatistics K) (xs : List Int) : genericStatistics K :=
  xs.foldl add s

end genericStatistics

/-! ## `histogramStatistics` -/

/-- The members of `class histogramStatistics`.  The heap array `_histogram` is modelled as a
memory `Nat → Nat` of which the first `_histogramAlloc` cells belong to the array; a write at an
index that is not below `_histogramAlloc` is a write outside the allocation.  The definitions
`add` and `finalizeData` below give the effect of the statements on this memory; whether every
array access of a call is inside its allocation is decided by `addChecked` and
`finalizeDataChecked`, which return `none` when one is not. -/
structure histogramStatistics (K : Type) where
  _finalized : Bool
  _histogramAlloc : Nat
  _histogramMax : Nat
  _histogram : Nat → Nat
  _numObjs : Nat
  _mean : K
  _stddev : K
  _mode : Nat
  _median : Nat
  _mad : Nat

namespace histogramStatistics

variable {K : Type} [LinearOrderedField K]

/-- The method `clearStatistics()`. -/
def clearStatistics (s : histogramStatistics K) : histogramStatistics K :=
  { s with _numObjs := 0, _mean := 0, _stddev := 0, _mode := 0, _median := 0, _mad := 0 }

/-- The constructor `histogramStatistics()`. -/
def new : histogramStatistics K :=
  clearStatistics
    { _finalized := false, _histogramAlloc := 1024 * 1024, _histogramMax := 0,
      _histogram := fun _ => 0, _numObjs := 0, _mean := 0, _stddev := 0, _mode := 0,
      _median := 0, _mad := 0 }

/-- Modelled from the spec: the helper `resizeArray` (declared outside `stddev.H`), called with
`resizeArray_copyData | resizeArray_clearNew`: the array gets `newMax` cells, the first
`arrayLen` cells keep their contents and every other cell is zero. -/
def resizeArray (array : Nat → Nat) (arrayLen newMax : Nat) : (Nat → Nat) × Nat :=
  (fun i => if i < arrayLen then array i else 0, newMax)

/-- The loop `while (_histogramAlloc < data) resizeArray(...)` of `add`, with a bound on the
number of iterations; `none` when the bound is exhausted with the condition still true. -/
def growLoop : Nat → histogramStatistics K → Nat → Option (histogramStatistics K)
  | 0, s, data => if s._histogramAlloc < data then none else some s
  | fuel + 1, s, data =>
    if s._histogramAlloc < data then
      let r := resizeArray s._histogram ((s._histogramMax + 1) % 2 ^ 64)
        ((s._histogramAlloc * 2) % 2 ^ 64)
      growLoop fuel { s with _histogram := r.1, _histogramAlloc := r.2 } data
    else some s

/-- The method `add(uint64 data, uint32 count=1)`: its effect on the memory.  After 64
doublings the 64-bit capacity is 0 and stays 0, so 65 iterations decide whether the loop
terminates; `none` is the loop that does not terminate.  Whether the cell `data` is inside the
array is decided by `addChecked`. -/
def add (s : histogramStatistics K) (data : Nat) (count : Nat := 1) :
    Option (histogramStatistics K) :=
  (growLoop 65 s data).map fun s =>
    let s : histogramStatistics K := if s._histogramMax < data then { s with _histogramMax := data } else s
    { s with _histogram := Function.update s._histogram data ((s._histogram data + count) % 2 ^ 64),
             _finalized := false }

/-- The scan shared by the median and the MAD loops of `finalizeData`:
`if (acc < half) acc += cells[ii]; else { acc = ii; break; }` over the indices `idx`. -/
def thresholdScan (cells : Nat → Nat) (half : Nat) : List Nat → Nat → Nat
  | [], acc => acc
  | ii :: rest, acc =>
    if acc < half then thresholdScan cells half rest ((acc + cells ii) % 2 ^ 64)
    else ii

/-- The method `finalizeData()`: its effect on the memory.  Every loop
`for (ii=0; ii <= _histogramMax; ii++)` runs over `List.range (_histogramMax + 1)`.  Whether
the accesses to `_histogram` and `maddata` are inside the arrays is decided by
`finalizeDataChecked`. -/
def finalizeData (sqrt : K → K) (s : histogramStatistics K) : histogramStatistics K :=
  if s._finalized = true then s
  else
    let s := s.clearStatistics
    let idx := List.range (s._histogramMax + 1)
    let numObjs : Nat := idx.foldl (fun a ii => (a + s._histogram ii) % 2 ^ 64) s._numObjs
    let mean : K := idx.foldl (fun a ii => a + (((ii * s._histogram ii) % 2 ^ 64 : Nat) : K)) s._mean
    let mean : K := if numObjs > 1 then mean / (numObjs : K) else mean
    let stddev : K := idx.foldl
      (fun a ii => a + (s._histogram ii : K) * ((ii : K) - mean) * ((ii : K) - mean)) s._stddev
    let stddev : K := if numObjs > 1 then sqrt (stddev / ((numObjs - 1 : Nat) : K)) else stddev
    let mode : Nat := idx.foldl
      (fun m ii => if s._histogram ii > s._histogram m then ii else m) s._mode
    let median : Nat := thresholdScan s._histogram (numObjs / 2) idx s._median
    let maddata : Nat → Nat := idx.foldl
      (fun md ii =>
        let mad := if ii < median then median - ii else ii - median
        Function.update md mad ((md mad + s._histogram ii) % 2 ^ 64))
      (fun _ => 0)
    let mad : Nat := thresholdScan maddata (numObjs / 2) idx s._mad
    { s with _numObjs := numObjs, _mean := mean, _stddev := stddev, _mode := mode,
             _median := median, _mad := mad, _finalized := true }

/-- The value returned by the method `numberOfObjects()`. -/
def numberOfObjects (sqrt : K → K) (s : histogramStatistics K) : Nat :=
  (s.finalizeData sqrt)._numObjs

/-- The value returned by the method `mean()`. -/
def mean (sqrt : K → K) (s : histogramStatistics K) : K := (s.finalizeData sqrt)._mean

/-- The value returned by the method `stddev()`. -/
def stddev (sqrt : K → K) (s : histogramStatistics K) : K := (s.finalizeData sqrt)._stddev

/-- The value returned by the method `median()`. -/
def median (sqrt : K → K) (s : histogramStatistics K) : Nat := (s.finalizeData sqrt)._median

/-- The value returned by the method `mad()`. -/
def mad (sqrt : K → K) (s : histogramStatistics K) : Nat := (s.finalizeData sqrt)._mad

/-- The method `histogram(uint64 ii)`. -/
def histogram (s : histogramStatistics K) (ii : Nat) : Nat := s._histogram ii

/-- The method `histogramMax()`. -/
def histogramMax (s : histogramStatistics K) : Nat := s._histogramMax

/-- Feeding a sequence of `(value, count)` pairs with `add`, one call per pair. -/
def addAll (s : histogramStatistics K) (ps : List (Nat × Nat)) :
    Option (histogramStatistics K) :=
  ps.foldlM (fun t p => t.add p.1 p.2) s

/-- Modelled from the spec: the format macro `F_U64` (declared outside `stddev.H`) prints an
unsigned 64-bit integer in decimal. -/
def F_U64 (n : Nat) : String := Nat.repr n

/-- The text written by one `fprintf(F, F_U64"\t" F_U64 "\n", ii, _histogram[ii])`. -/
def writeRow (s : histogramStatistics K) (ii : Nat) : String :=
  F_U64 ii ++ "\t" ++ F_U64 (s._histogram ii) ++ "\n"

/-- The method `writeHistogram(FILE *F, char *label)`: the text appended to `F`, paired with
the object after the call. -/
def writeHistogram (s : histogramStatistics K) (label : String) :
    String × histogramStatistics K :=
  let header := "#" ++ label ++ "\tquantity\n"
  let out := (List.range (s._histogramMax + 1)).foldl (fun out ii => out ++ s.writeRow ii) header
  (out, s)

/-- Spec side: a call made on a histogram, either `add(value, count)` or a read through one of
the accessors `numberOfObjects`, `mean`, `stddev`, `median`, `mad`. -/
inductive op where
  | add (value count : Nat)
  | read

/-- Spec side: running a sequence of calls; a read leaves the object as `finalizeData` leaves
it, since every accessor starts with `finalizeData()`. -/
def run (sqrt : K → K) (s : histogramStatistics K) : List op → Option (histogramStatistics K)
  | [] => some s
  | op.add value count :: rest => (s.add value count).bind (fun t => run sqrt t rest)
  | op.read :: rest => run sqrt (s.finalizeData sqrt) rest

/-- Spec side: the `(value, count)` pairs of the `add` calls of a sequence, in order. -/
def adds : List op → List (Nat × Nat)
  | [] => []
  | op.add value count :: rest => (value, count) :: adds rest
  | op.read :: rest => adds rest

/-- The loop of `add` with the array bounds: each `resizeArray` copies `_histogramMax+1` cells
out of an array of `_histogramAlloc` cells, which is a read outside the array (`none`) unless
`_histogramMax+1 ≤ _histogramAlloc`; `none` also when the bound on the iterations is
exhausted. -/
def growLoopChecked : Nat → histogramStatistics K → Nat → Option (histogramStatistics K)
  | 0, s, data => if s._histogramAlloc < data then none else some s
  | fuel + 1, s, data =>
    if s._histogramAlloc < data then
      if (s._histogramMax + 1) % 2 ^ 64 ≤ s._histogramAlloc then
        let r := resizeArray s._histogram ((s._histogramMax + 1) % 2 ^ 64)
          ((s._histogramAlloc * 2) % 2 ^ 64)
        growLoopChecked fuel { s with _histogram := r.1, _histogramAlloc := r.2 } data
      else none
    else some s

/-- The method `add(uint64 data, uint32 count=1)` with the array bounds: the statement
`_histogram[data] += count` is inside the array only if `data < _histogramAlloc` after the loop;
`none` is a call that does not return normally (an access outside an array, or a loop that does
not terminate). -/
def addChecked (s : histogramStatistics K) (data : Nat) (count : Nat := 1) :
    Option (histogramStatistics K) :=
  (growLoopChecked 65 s data).bind fun s =>
    if data < s._histogramAlloc then
      let s : histogramStatistics K :=
        if s._histogramMax < data then { s with _histogramMax := data } else s
      some { s with
        _histogram := Function.update s._histogram data ((s._histogram data + count) % 2 ^ 64),
        _finalized := false }
    else none

/-- The method `finalizeData()` with the array bounds.  On a stale cache the loops read
`_histogram[ii]` for every `ii ≤ _histogramMax`, inside the array only if
`_histogramMax < _histogramAlloc`, and the MAD pass writes `maddata[|ii - _median|]` for every
`ii ≤ _histogramMax` into `new uint64 [_histogramAlloc]`, with `_median` the value left by the
median scan; `none` is an access outside one of the two arrays. -/
def finalizeDataChecked (sqrt : K → K) (s : histogramStatistics K) :
    Option (histogramStatistics K) :=
  if s._finalized = true then some s
  else if s._histogramMax < s._histogramAlloc ∧
      (List.range (s._histogramMax + 1)).all (fun ii =>
        decide ((if ii < (s.finalizeData sqrt)._median then (s.finalizeData sqrt)._median - ii
          else ii - (s.finalizeData sqrt)._median) < s._histogramAlloc)) = true then
    some (s.finalizeData sqrt)
  else none

/-- Spec side: running a sequence of calls with the array bounds; `none` as soon as one call
does not return normally. -/
def runChecked (sqrt : K → K) (s : histogramStatistics K) :
    List op → Option (histogramStatistics K)
  | [] => some s
  | op.add value count :: rest => (s.addChecked value count).bind (fun t => runChecked sqrt t rest)
  | op.read :: rest => (s.finalizeDataChecked sqrt).bind (fun t => runChecked sqrt t rest)

/-- Feeding a sequence of `(value, count)` pairs with `add`, with the array bounds. -/
def addAllChecked (s : histogramStatistics K) (ps : List (Nat × Nat)) :
    Option (histogramStatistics K) :=
  ps.foldlM (fun t p => t.addChecked p.1 p.2) s

/-- Spec side: the cumulative bucket count `histogram(0) + ... + histogram(m)`. -/
def cumulative (s : histogramStatistics K) (m : Nat) : Nat :=
  ((List.range (m + 1)).map s.histogram).sum

/-- The data-model invariant of the histogram: the capacity covers the maximum valid index,
and every cell beyond the maximum valid index is zero. -/
def inv (s : histogramStatistics K) : Prop :=
  s._histogramMax + 1 ≤ s._histogramAlloc ∧ ∀ i, s._histogramMax < i → s._histogram i = 0

end histogramStatistics

/-! ## Spec-side descriptions of a multiset given by per-value counts -/

/-- Spec side: the multiset of raw values described by a list of `(value, count)` pairs, each
value repeated `count` times. -/
def samples (ps : List (Nat × Nat)) : List Int :=
  ps.flatMap (fun p => List.replicate p.2 (p.1 : Int))

/-- Spec side: the total count that a list of `(value, count)` pairs gives to the value `i`. -/
def tally (ps : List (Nat × Nat)) (i : Nat) : Nat :=
  (ps.map (fun p => if p.1 = i then p.2 else 0)).sum

/-! ## `s4p_IsSameRegion` (`sim4polish-compare.c`) -/

/-- Modelled from the spec: the exon record of a polish (declared in `sim4polish.h`, outside the
sources at hand), of which the function reads the 32-bit unsigned `genFrom` and `genTo`. -/
structure sim4polishExon where
  genFrom : Nat
  genTo : Nat

/-- Modelled from the spec: the polish record (declared in `sim4polish.h`), of which the
function reads the 32-bit unsigned `genLo` and `numExons` and the array `exons`. -/
structure sim4polish where
  genLo : Nat
  numExons : Nat
  exons : List sim4polishExon

/-- Conversion of an integer to the 32-bit `int` (two's complement). -/
def toInt32 (x : Int) : Int := (x + 2 ^ 31) % 2 ^ 32 - 2 ^ 31

/-- Conversion of an `int` to `unsigned int`, as the usual arithmetic conversions do when an
`int` meets a `u32bit` operand. -/
def toUInt32 (x : Int) : Nat := (x % 2 ^ 32).toNat

/-- The function `s4p_IsSameRegion(A, B, tolerance)`.  `tolerance` is a `u32bit`, so
`-tolerance` is the unsigned value `2^32 - tolerance` (modulo `2^32`), and in each of the four
comparisons the `int` difference is converted to unsigned. -/
def s4p_IsSameRegion (A B : sim4polish) (tolerance : Nat) : Int :=
  let Alo : Int := if A.numExons > 0 then
      toInt32 (((A.genLo + (A.exons.getD 0 ⟨0, 0⟩).genFrom) % 2 ^ 32 : Nat)) else 0
  let Ahi : Int := if A.numExons > 0 then
      toInt32 (((A.genLo + (A.exons.getD (A.numExons - 1) ⟨0, 0⟩).genTo) % 2 ^ 32 : Nat)) else 0
  let Blo : Int := if B.numExons > 0 then
      toInt32 (((B.genLo + (B.exons.getD 0 ⟨0, 0⟩).genFrom) % 2 ^ 32 : Nat)) else 0
  let Bhi : Int := if B.numExons > 0 then
      toInt32 (((B.genLo + (B.exons.getD (B.numExons - 1) ⟨0, 0⟩).genTo) % 2 ^ 32 : Nat)) else 0
  let Dlo := toInt32 (Blo - Alo)
  let Dhi := toInt32 (Bhi - Ahi)
  let negTolerance : Nat := (2 ^ 32 - tolerance % 2 ^ 32) % 2 ^ 32
  if toUInt32 Dlo < negTolerance ∨ toUInt32 Dlo > tolerance ∨
      toUInt32 Dhi < negTolerance ∨ toUInt32 Dhi > tolerance then 0
  else 1

/-- Spec side: the genomic start and end positions of a polish, `genLo + genFrom` of the first
exon and `genLo + genTo` of the last exon, both 0 when there are no exons. -/
def genomicSpan (A : sim4polish) : Int × Int :=
  if A.numExons > 0 then
    (((A.genLo + (A.exons.getD 0 ⟨0, 0⟩).genFrom : Nat) : Int),
     ((A.genLo + (A.exons.getD (A.numExons - 1) ⟨0, 0⟩).genTo : Nat) : Int))
  else (0, 0)

/-! ## Helper lemmas -/

section bits

theorem land_high_eq_zero {n : Nat} (h : n < 2 ^ 31) : n &&& 0x80000000 = 0 := by
  have h2 : (0x80000000 : Nat) = 2 ^ 31 := by norm_num
  rw [h2, Nat.and_two_pow, Nat.testBit_lt_two_pow h]
  simp

theorem land_high_ne_zero {n : Nat} (h1 : 2 ^ 31 ≤ n) (h2 : n < 2 ^ 32) :
    n &&& 0x80000000 ≠ 0 := by
  have e : (0x80000000 : Nat) = 2 ^ 31 := by norm_num
  rw [e, Nat.and_two_pow]
  have hb : n.testBit 31 = true := by
    rw [Nat.testBit_to_div_mod]
    have : n / 2 ^ 31 % 2 = 1 := by omega
    simp only [this, decide_True]
  simp [hb]

theorem land_high_eq_zero_iff {n : Nat} (h : n < 2 ^ 32) :
    n &&& 0x80000000 = 0 ↔ n < 2 ^ 31 := by
  constructor
  · intro h0
    by_contra hc
    exact land_high_ne_zero (by omega) h h0
  · exact land_high_eq_zero

theorem land_low_of_lt {n : Nat} (h : n < 2 ^ 31) : n &&& 0x7fffffff = n := by
  have e : (0x7fffffff : Nat) = 2 ^ 31 - 1 := by norm_num
  rw [e, Nat.and_pow_two_sub_one_eq_mod, Nat.mod_eq_of_lt h]

end bits


namespace stdDev

variable {K : Type} [LinearOrderedField K]

theorem insert_of_lt (s : stdDev K) (v : K) (h : s._nn < 2 ^ 31 - 1) :
    s.insert v = some
      { _mn := s._mn + (v - s._mn) / ((s._nn + 1 : Nat) : K),
        _sn := s._sn + (v - s._mn) * (v - (s._mn + (v - s._mn) / ((s._nn + 1 : Nat) : K))),
        _nn := s._nn + 1 } := by
  have h1 : s._nn ≠ 0x7fffffff := by omega
  have h2 : s._nn &&& 0x80000000 = 0 := land_high_eq_zero (by omega)
  have h3 : (s._nn + 1) % 2 ^ 32 = s._nn + 1 := Nat.mod_eq_of_lt (by omega)
  simp only [insert, h1, h2, h3, if_false, ne_eq, not_true_eq_false]

theorem insertAll_append_singleton (s : stdDev K) (xs : List K) (v : K) :
    s.insertAll (xs ++ [v]) = (s.insertAll xs).bind (fun t => t.insert v) := by
  simp [insertAll, List.foldlM_append]

theorem insertAll_welford (xs : List K) (h : xs.length < 2 ^ 31) :
    ∃ s : stdDev K, (new : stdDev K).insertAll xs = some s ∧ s._nn = xs.length ∧
      (xs.length : K) * s._mn = xs.sum ∧
      s._sn = (xs.map (fun x => x * x)).sum - (xs.length : K) * (s._mn * s._mn) := by
  induction xs using List.reverseRecOn with
  | nil => exact ⟨new, rfl, rfl, by simp [new], by simp [new]⟩
  | append_singleton xs v ih =>
    rw [List.length_append, List.length_singleton] at h
    obtain ⟨s, hs, hn, hm, hq⟩ := ih (by omega)
    rw [insertAll_append_singleton, hs, Option.some_bind, insert_of_lt s v (by omega)]
    refine ⟨_, rfl, ?_, ?_, ?_⟩
    · simp [hn]
    · have hne : ((xs.length : K) + 1) ≠ 0 := by positivity
      simp only [List.length_append, List.length_singleton, List.sum_append, List.sum_singleton,
        hn, Nat.cast_add, Nat.cast_one, ← hm]
      field_simp
      ring
    · have hne : ((xs.length : K) + 1) ≠ 0 := by positivity
      simp only [List.length_append, List.length_singleton, List.sum_append, List.sum_singleton,
        List.map_append, List.map_cons, List.map_nil, hn, Nat.cast_add, Nat.cast_one, hq]
      field_simp
      ring

theorem sum_sq_dev (xs : List K) (c : K) :
    (xs.map (fun x => (x - c) ^ 2)).sum =
      (xs.map (fun x => x * x)).sum - 2 * c * xs.sum + (xs.length : K) * (c * c) := by
  induction xs with
  | nil => simp
  | cons x xs ih =>
    simp only [List.map_cons, List.sum_cons, List.length_cons, Nat.cast_add, Nat.cast_one, ih]
    ring

/-- C1. Welford correctness: inserting a finite sequence (shorter than 2^31-1) one by one into
a default-constructed accumulator succeeds, and afterwards `size()` is the length, `mean()` is
the arithmetic mean (for a non-empty sequence), `variance()` is the sample variance with
denominator n-1 (and 0 below two values), and `stddev()` is `sqrt` of `variance()`. -/
theorem welford_correct (sqrt : K → K) (xs : List K) (h : xs.length < 2 ^ 31 - 1) :
    ∃ s : stdDev K, (new : stdDev K).insertAll xs = some s ∧
      s.size = xs.length ∧
      (1 ≤ xs.length → s.mean = xs.sum / (xs.length : K)) ∧
      (2 ≤ xs.length → s.variance =
        (xs.map (fun x => (x - xs.sum / (xs.length : K)) ^ 2)).sum / ((xs.length : K) - 1)) ∧
      (xs.length < 2 → s.variance = 0) ∧
      s.stddev sqrt = sqrt s.variance := by
  obtain ⟨s, hs, hn, hm, hq⟩ := insertAll_welford xs (by omega)
  have hfin : s._nn &&& 0x80000000 = 0 := land_high_eq_zero (by omega)
  have hmean : 1 ≤ xs.length → s._mn = xs.sum / (xs.length : K) := by
    intro h1
    have hne : (xs.length : K) ≠ 0 := by positivity
    rw [← hm]; field_simp
  refine ⟨s, hs, ?_, hmean, ?_, ?_, ?_⟩
  · rw [size, land_low_of_lt (by omega), hn]
  · intro h2
    have h2' : ¬ s._nn < 2 := by omega
    rw [← hmean (by omega)]
    simp only [variance, hfin, ne_eq, not_true_eq_false, if_false, h2']
    rw [sum_sq_dev, hq, ← hm, hn, Nat.cast_sub (by omega), Nat.cast_one]
    congr 1
    ring
  · intro h2
    have h2' : s._nn < 2 := by omega
    simp [variance, hfin, h2']
  · simp [stddev, hfin]

/-- Witness for C1 on the sequence 2, 4, 9 over the rationals. -/
theorem welford_correct_witness :
    ([2, 4, 9] : List ℚ).length < 2 ^ 31 - 1 ∧
    ∃ s : stdDev ℚ, (new : stdDev ℚ).insertAll [2, 4, 9] = some s ∧
      s.size = ([2, 4, 9] : List ℚ).length ∧
      (1 ≤ ([2, 4, 9] : List ℚ).length →
        s.mean = ([2, 4, 9] : List ℚ).sum / (([2, 4, 9] : List ℚ).length : ℚ)) ∧
      (2 ≤ ([2, 4, 9] : List ℚ).length → s.variance =
        (([2, 4, 9] : List ℚ).map
          (fun x => (x - ([2, 4, 9] : List ℚ).sum / (([2, 4, 9] : List ℚ).length : ℚ)) ^ 2)).sum
          / ((([2, 4, 9] : List ℚ).length : ℚ) - 1)) ∧
      (([2, 4, 9] : List ℚ).length < 2 → s.variance = 0) ∧
      s.stddev (fun y => y) = (fun y => y) s.variance :=
  ⟨by decide, welford_correct (fun y => y) [2, 4, 9] (by decide)⟩

omit [LinearOrderedField K] in
theorem finalized_eq_false_iff (s : stdDev K) (hwf : s._nn < 2 ^ 32) :
    s.finalized = false ↔ s._nn < 2 ^ 31 := by
  simp only [finalized, bne_eq_false_iff_eq]
  exact land_high_eq_zero_iff hwf

omit [LinearOrderedField K] in
theorem size_eq_mod (s : stdDev K) : s.size = s._nn % 2 ^ 31 := by
  have e : (0x7fffffff : Nat) = 2 ^ 31 - 1 := by norm_num
  rw [size, e, Nat.and_pow_two_sub_one_eq_mod]

theorem finalize_finalized (sqrt : K → K) (s : stdDev K) :
    (s.finalize sqrt).finalized = true := by
  have e : (0x80000000 : Nat) = 2 ^ 31 := by norm_num
  simp only [finalized, finalize, e, Nat.and_two_pow, Nat.testBit_mod_two_pow, Nat.testBit_or,
    Nat.testBit_two_pow_self]
  simp

theorem insert_eq_none_iff (s : stdDev K) (v : K) :
    s.insert v = none ↔ (s._nn = 0x7fffffff ∨ s.finalized = true) := by
  unfold insert finalized
  by_cases h1 : s._nn = 0x7fffffff
  · simp [h1]
  · by_cases h2 : s._nn &&& 0x80000000 = 0
    · simp [h1, h2]
    · simp [h1, h2]

theorem remove_eq_none_iff (s : stdDev K) (v : K) :
    s.remove v = none ↔ (s._nn = 0 ∨ s.finalized = true) := by
  unfold remove finalized
  by_cases h1 : s._nn = 0
  · simp [h1]
  · by_cases h2 : s._nn &&& 0x80000000 = 0
    · simp [h1, h2]
    · simp [h1, h2]

/-- C3. On a well-formed state, `insert` is rejected (result `none`, no state is produced)
exactly when the accumulator is finalized or its count is 2^31-1, and `remove` exactly when it
is finalized or its count is 0; after `finalize()` both are rejected; and in every state
outside these rejection conditions the call succeeds. -/
theorem insert_remove_rejected_iff (sqrt : K → K) (s : stdDev K) (v : K)
    (hwf : s._nn < 2 ^ 32) :
    (s.insert v = none ↔ (s.finalized = true ∨ s.size = 2 ^ 31 - 1)) ∧
    (s.remove v = none ↔ (s.finalized = true ∨ s.size = 0)) ∧
    ((s.finalize sqrt).insert v = none ∧ (s.finalize sqrt).remove v = none) ∧
    (s.finalized = false → s.size ≠ 2 ^ 31 - 1 → (s.insert v).isSome = true) ∧
    (s.finalized = false → s.size ≠ 0 → (s.remove v).isSome = true) := by
  have hI : s.insert v = none ↔ (s.finalized = true ∨ s.size = 2 ^ 31 - 1) := by
    rw [insert_eq_none_iff, size_eq_mod]
    constructor
    · rintro (h | h)
      · right; rw [h]; norm_num
      · left; exact h
    · rintro (h | h)
      · right; exact h
      · by_cases hf : s.finalized = true
        · right; exact hf
        · left
          have := (finalized_eq_false_iff s hwf).1 (by simpa using hf)
          omega
  have hR : s.remove v = none ↔ (s.finalized = true ∨ s.size = 0) := by
    rw [remove_eq_none_iff, size_eq_mod]
    constructor
    · rintro (h | h)
      · right; rw [h]; norm_num
      · left; exact h
    · rintro (h | h)
      · right; exact h
      · by_cases hf : s.finalized = true
        · right; exact hf
        · left
          have := (finalized_eq_false_iff s hwf).1 (by simpa using hf)
          omega
  refine ⟨hI, hR, ⟨?_, ?_⟩, ?_, ?_⟩
  · exact (insert_eq_none_iff _ v).2 (Or.inr (finalize_finalized sqrt s))
  · exact (remove_eq_none_iff _ v).2 (Or.inr (finalize_finalized sqrt s))
  · intro hf hs
    rw [Option.isSome_iff_ne_none, Ne, hI]
    simpa [hf] using hs
  · intro hf hs
    rw [Option.isSome_iff_ne_none, Ne, hR]
    simp [hf, hs]

/-- Witness for C3 at the state reached after one insert. -/
theorem insert_remove_rejected_iff_witness :
    (new (3 : ℚ) 0 1)._nn < 2 ^ 32 ∧
    (((new (3 : ℚ) 0 1).insert 4 = none ↔
        ((new (3 : ℚ) 0 1).finalized = true ∨ (new (3 : ℚ) 0 1).size = 2 ^ 31 - 1)) ∧
    ((new (3 : ℚ) 0 1).remove 4 = none ↔
        ((new (3 : ℚ) 0 1).finalized = true ∨ (new (3 : ℚ) 0 1).size = 0)) ∧
    (((new (3 : ℚ) 0 1).finalize (fun y => y)).insert 4 = none ∧
      ((new (3 : ℚ) 0 1).finalize (fun y => y)).remove 4 = none) ∧
    ((new (3 : ℚ) 0 1).finalized = false → (new (3 : ℚ) 0 1).size ≠ 2 ^ 31 - 1 →
      ((new (3 : ℚ) 0 1).insert 4).isSome = true) ∧
    ((new (3 : ℚ) 0 1).finalized = false → (new (3 : ℚ) 0 1).size ≠ 0 →
      ((new (3 : ℚ) 0 1).remove 4).isSome = true)) :=
  ⟨by decide, insert_remove_rejected_iff (fun y => y) (new 3 0 1) 4 (by decide)⟩

/-- C2, as stated, fails: the accumulator constructed from the triple (5, 0, 0) is not
finalized and has count 0, yet `insert(1)` followed by `remove(1)` leaves `mean()` at 0,
not at 5. -/
theorem insert_remove_mean_not_restored :
    (new (5 : ℚ) 0 0).finalized = false ∧ (new (5 : ℚ) 0 0).size < 2 ^ 31 - 1 ∧
    (new (5 : ℚ) 0 0).mean = 5 ∧
    (((new (5 : ℚ) 0 0).insert 1).bind (fun t => t.remove 1)).map mean = some 0 := by
  refine ⟨by decide, by decide, rfl, ?_⟩
  norm_num [new, insert, remove, mean]

/-- C2, amended. For every well-formed, not finalized state with count below 2^31-1 and every
value `v`, `insert(v)` followed by `remove(v)` succeeds and restores `size()`, `variance()` and
the stored sum of squared deviations; `mean()` is restored when the count was at least 1, and
is 0 afterwards when the count was 0. -/
theorem insert_remove_restores (s : stdDev K) (v : K) (hwf : s._nn < 2 ^ 32)
    (hfin : s.finalized = false) (hn : s.size < 2 ^ 31 - 1) :
    ∃ t u : stdDev K, s.insert v = some t ∧ t.remove v = some u ∧
      u.size = s.size ∧ u.variance = s.variance ∧ u._sn = s._sn ∧
      (1 ≤ s.size → u.mean = s.mean) ∧ (s.size = 0 → u.mean = 0) := by
  have hlt : s._nn < 2 ^ 31 := (finalized_eq_false_iff s hwf).1 hfin
  have hsz : s.size = s._nn := by rw [size_eq_mod, Nat.mod_eq_of_lt hlt]
  rw [hsz] at hn ⊢
  have hrm : ∀ t : stdDev K, t._nn = s._nn + 1 →
      t.remove v = some
        { _mn := if s._nn = 0 then 0 else ((t._nn : K) * t._mn - v) / (s._nn : K),
          _sn := t._sn - (v - (if s._nn = 0 then 0 else ((t._nn : K) * t._mn - v) / (s._nn : K)))
                  * (v - t._mn),
          _nn := s._nn } := by
    intro t ht
    have h1 : t._nn ≠ 0 := by omega
    have h2 : t._nn &&& 0x80000000 = 0 := land_high_eq_zero (by omega)
    have h3 : (t._nn + 2 ^ 32 - 1) % 2 ^ 32 = s._nn := by omega
    simp only [remove, h1, h2, h3, if_false, ne_eq, not_true_eq_false]
  refine ⟨_, _, insert_of_lt s v hn, hrm _ rfl, ?_, ?_, ?_, ?_, ?_⟩
  · exact land_low_of_lt hlt
  · have hsn : ∀ a b : stdDev K, a._nn = b._nn → a._sn = b._sn → a.variance = b.variance := by
      intro a b h1 h2
      simp [variance, h1, h2]
    apply hsn
    · rfl
    · by_cases h0 : s._nn = 0
      · simp [h0]
      · have hne : (s._nn : K) ≠ 0 := Nat.cast_ne_zero.2 h0
        have hne' : (s._nn : K) + 1 ≠ 0 := by positivity
        simp only [h0, if_false, Nat.cast_add, Nat.cast_one]
        field_simp
        ring
  · by_cases h0 : s._nn = 0
    · simp [h0]
    · have hne : (s._nn : K) ≠ 0 := Nat.cast_ne_zero.2 h0
      have hne' : (s._nn : K) + 1 ≠ 0 := by positivity
      simp only [h0, if_false, Nat.cast_add, Nat.cast_one]
      field_simp
      ring
  · intro h1
    have h0 : s._nn ≠ 0 := by omega
    have hne : (s._nn : K) ≠ 0 := Nat.cast_ne_zero.2 h0
    have hne' : (s._nn : K) + 1 ≠ 0 := by positivity
    simp only [mean, h0, if_false, Nat.cast_add, Nat.cast_one]
    field_simp
    ring
  · intro h0
    simp [mean, h0]

/-- Witness for the amended C2 at the state (mean 3, S 2, count 2) and the value 7. -/
theorem insert_remove_restores_witness :
    (new (3 : ℚ) 2 2)._nn < 2 ^ 32 ∧ (new (3 : ℚ) 2 2).finalized = false ∧
    (new (3 : ℚ) 2 2).size < 2 ^ 31 - 1 ∧
    ∃ t u : stdDev ℚ, (new (3 : ℚ) 2 2).insert 7 = some t ∧ t.remove 7 = some u ∧
      u.size = (new (3 : ℚ) 2 2).size ∧ u.variance = (new (3 : ℚ) 2 2).variance ∧
      u._sn = (new (3 : ℚ) 2 2)._sn ∧
      (1 ≤ (new (3 : ℚ) 2 2).size → u.mean = (new (3 : ℚ) 2 2).mean) ∧
      ((new (3 : ℚ) 2 2).size = 0 → u.mean = 0) :=
  ⟨by decide, by decide, by decide,
    insert_remove_restores (new 3 2 2) 7 (by decide) (by decide) (by decide)⟩

end stdDev

/-! ## The offline estimators: median, MAD and mode -/

section estimators

theorem foldl_push_eq_map (f : Int → Int) (l acc : List Int) :
    l.foldl (fun m x => m ++ [f x]) acc = acc ++ l.map f := by
  induction l generalizing acc with
  | nil => simp
  | cons x l ih => simp [ih]

theorem deviations_fold (median : Int) (l : List Int) :
    l.foldl (fun m x => if x < median then m ++ [median - x] else m ++ [x - median]) []
      = l.map (fun x => |x - median|) := by
  have h : (fun (m : List Int) (x : Int) =>
      if x < median then m ++ [median - x] else m ++ [x - median])
      = fun m x => m ++ [(fun y => |y - median|) x] := by
    funext m x
    by_cases hx : x < median
    · simp only [hx, if_true]
      rw [abs_of_neg (by omega)]
      simp
    · simp only [hx, if_false]
      rw [abs_of_nonneg (by omega)]
  rw [h, foldl_push_eq_map]
  simp

theorem sort_map_sort (f : Int → Int) (l : List Int) :
    ((l.insertionSort (· ≤ ·)).map f).insertionSort (· ≤ ·)
      = (l.map f).insertionSort (· ≤ ·) := by
  apply List.eq_of_perm_of_sorted (r := (· ≤ ·))
  · exact (List.perm_insertionSort _ _).trans
      (((List.perm_insertionSort _ l).map f).trans (List.perm_insertionSort _ _).symm)
  · exact List.sorted_insertionSort _ _
  · exact List.sorted_insertionSort _ _

theorem getD_eq_some (l : List Int) (i : Nat) (h : i < l.length) :
    l[i]? = some (l.getD i 0) := by
  rw [List.getD_eq_getElem l 0 h, List.getElem?_eq_getElem h]

theorem computeMedianAbsoluteDeviation_eq (xs : List Int) (h : xs ≠ []) :
    computeMedianAbsoluteDeviation xs false =
      ((xs.insertionSort (· ≤ ·)).getD (xs.length / 2) 0,
       ((xs.map (fun x => |x - (xs.insertionSort (· ≤ ·)).getD (xs.length / 2) 0|)).insertionSort
          (· ≤ ·)).getD (xs.length / 2) 0) := by
  have hl : xs.length ≠ 0 := by simpa using h
  simp only [computeMedianAbsoluteDeviation, hl, if_false, sortUnless, if_true,
    List.length_insertionSort, deviations_fold, sort_map_sort, List.length_map]

/-- C7. For a non-empty input of length n (not flagged as sorted),
`computeMedianAbsoluteDeviation` sets `median` to the element at index n/2 of the ascending
sort of the input and `mad` to the element at index n/2 of the ascending sort of the absolute
deviations |x - median| of all inputs; for 1,2,3,4,5 this gives median 3 and mad 1. -/
theorem computeMedianAbsoluteDeviation_spec (xs : List Int) (h : xs ≠ []) :
    (xs.insertionSort (· ≤ ·))[xs.length / 2]?
      = some (computeMedianAbsoluteDeviation xs false).1 ∧
    ((xs.map (fun x => |x - (computeMedianAbsoluteDeviation xs false).1|)).insertionSort
        (· ≤ ·))[xs.length / 2]?
      = some (computeMedianAbsoluteDeviation xs false).2 ∧
    computeMedianAbsoluteDeviation [1, 2, 3, 4, 5] false = (3, 1) := by
  have hpos : 0 < xs.length := List.length_pos.2 h
  have hi : xs.length / 2 < xs.length := Nat.div_lt_self hpos (by norm_num)
  rw [computeMedianAbsoluteDeviation_eq xs h]
  refine ⟨?_, ?_, by decide⟩
  · exact getD_eq_some _ _ (by rw [List.length_insertionSort]; exact hi)
  · exact getD_eq_some _ _ (by rw [List.length_insertionSort, List.length_map]; exact hi)

/-- Witness for C7 on the unsorted input 4, 1, 9. -/
theorem computeMedianAbsoluteDeviation_spec_witness :
    ([4, 1, 9] : List Int) ≠ [] ∧
    ((([4, 1, 9] : List Int).insertionSort (· ≤ ·))[([4, 1, 9] : List Int).length / 2]?
      = some (computeMedianAbsoluteDeviation [4, 1, 9] false).1 ∧
    ((([4, 1, 9] : List Int).map
        (fun x => |x - (computeMedianAbsoluteDeviation [4, 1, 9] false).1|)).insertionSort
        (· ≤ ·))[([4, 1, 9] : List Int).length / 2]?
      = some (computeMedianAbsoluteDeviation [4, 1, 9] false).2 ∧
    computeMedianAbsoluteDeviation [1, 2, 3, 4, 5] false = (3, 1)) :=
  ⟨by decide, computeMedianAbsoluteDeviation_spec [4, 1, 9] (by decide)⟩

/-- C8, as stated, fails: on the input 1, 2 the median is 2, the element at sorted index
n/2 = 1, not the element 1 at sorted index n/2 - 1 = 0. -/
theorem median_even_not_lower :
    ([1, 2] : List Int).length % 2 = 0 ∧ 2 ≤ ([1, 2] : List Int).length ∧
    (([1, 2] : List Int).insertionSort (· ≤ ·))[([1, 2] : List Int).length / 2 - 1]? = some 1 ∧
    (computeMedianAbsoluteDeviation [1, 2] false).1 = 2 := by
  decide

/-- C8, amended. For an input of even length n ≥ 2 the median returned by
`computeMedianAbsoluteDeviation` is the upper of the two central values of the sorted input:
the element at sorted index n/2, which is at least the element at sorted index n/2 - 1. -/
theorem median_even_upper (xs : List Int) (hn : 2 ≤ xs.length) (he : xs.length % 2 = 0) :
    ∃ lo hi : Int,
      (xs.insertionSort (· ≤ ·))[xs.length / 2 - 1]? = some lo ∧
      (xs.insertionSort (· ≤ ·))[xs.length / 2]? = some hi ∧
      lo ≤ hi ∧ (computeMedianAbsoluteDeviation xs false).1 = hi := by
  have hne : xs ≠ [] := by
    intro h0; rw [h0] at hn; simp at hn
  have hlen : (xs.insertionSort (· ≤ ·)).length = xs.length := List.length_insertionSort _ _
  have h1 : xs.length / 2 - 1 < (xs.insertionSort (· ≤ ·)).length := by omega
  have h2 : xs.length / 2 < (xs.insertionSort (· ≤ ·)).length := by omega
  refine ⟨(xs.insertionSort (· ≤ ·))[xs.length / 2 - 1], (xs.insertionSort (· ≤ ·))[xs.length / 2],
    List.getElem?_eq_getElem h1, List.getElem?_eq_getElem h2, ?_, ?_⟩
  · have hs : (xs.insertionSort (· ≤ ·)).Sorted (· ≤ ·) := List.sorted_insertionSort _ _
    have := hs.rel_get_of_le (a := ⟨xs.length / 2 - 1, h1⟩) (b := ⟨xs.length / 2, h2⟩)
      (by simp [Fin.le_def])
    simpa using this
  · rw [computeMedianAbsoluteDeviation_eq xs hne]
    exact List.getD_eq_getElem _ 0 h2

/-- Witness for the amended C8 on the input 7, 1, 5, 3. -/
theorem median_even_upper_witness :
    2 ≤ ([7, 1, 5, 3] : List Int).length ∧ ([7, 1, 5, 3] : List Int).length % 2 = 0 ∧
    ∃ lo hi : Int,
      (([7, 1, 5, 3] : List Int).insertionSort (· ≤ ·))[([7, 1, 5, 3] : List Int).length / 2 - 1]?
        = some lo ∧
      (([7, 1, 5, 3] : List Int).insertionSort (· ≤ ·))[([7, 1, 5, 3] : List Int).length / 2]?
        = some hi ∧
      lo ≤ hi ∧ (computeMedianAbsoluteDeviation [7, 1, 5, 3] false).1 = hi :=
  ⟨by decide, by decide, median_even_upper [7, 1, 5, 3] (by decide) (by decide)⟩

/-- C6, evaluated at the failing input 0, 0, 1, 1: the values 0 and 1 both occur twice, no
value occurs more often, the smallest of them is 0, and `computeMode` returns 1.  On the input
3, 3, 1, 1 of the claim it returns 1. -/
theorem computeMode_zero_tie :
    computeMode [0, 0, 1, 1] false = 1 ∧
    List.count (0 : Int) [0, 0, 1, 1] = 2 ∧ List.count (1 : Int) [0, 0, 1, 1] = 2 ∧
    (∀ v ∈ ([0, 0, 1, 1] : List Int), List.count v [0, 0, 1, 1] ≤ 2) ∧
    computeMode [0, 1] false = 1 ∧
    computeMode [3, 3, 1, 1] false = 1 := by
  decide

end estimators

/-! ## `histogramStatistics` -/

namespace histogramStatistics

/-- C4, evaluated at two failing inputs.  After the single call `add(5)` the histogram holds one
object, the smallest index whose cumulative count reaches ceil(1/2) = 1 is 5, and `median()`
returns 0.  After `add(0)` twice the smallest such index is 0 and `median()` returns 2, the
number of objects. -/
theorem median_not_first_reaching_half :
    (∃ s : histogramStatistics ℚ, (new : histogramStatistics ℚ).add 5 1 = some s ∧
      s.numberOfObjects (fun y => y) = 1 ∧ s.median (fun y => y) = 0 ∧
      s.cumulative 5 = 1 ∧ (∀ m < 5, s.cumulative m = 0)) ∧
    (∃ s : histogramStatistics ℚ,
      ((new : histogramStatistics ℚ).add 0 1).bind (fun t => t.add 0 1) = some s ∧
      s.numberOfObjects (fun y => y) = 2 ∧ s.median (fun y => y) = 2 ∧
      s.cumulative 0 = 2) := by
  refine ⟨⟨_, rfl, by decide, by decide, by decide, by decide⟩, ⟨_, rfl, by decide, by decide, by decide⟩⟩

/-- C10, evaluated at the failing input: the fresh histogram satisfies the invariant, and
`add(1048576)` (a value equal to the capacity) does not grow the array: afterwards the capacity
is still 1048576, the maximum valid index is 1048576, and the written cell 1048576 is not
inside the allocation, so the invariant is broken. -/
theorem add_at_capacity_breaks_inv :
    (new : histogramStatistics ℚ).inv ∧
    ∃ s : histogramStatistics ℚ, (new : histogramStatistics ℚ).add 1048576 1 = some s ∧
      s._histogramAlloc = 1048576 ∧ s._histogramMax = 1048576 ∧
      s._histogram 1048576 = 1 ∧ ¬ s.inv := by
  refine ⟨⟨by decide, fun _ _ => rfl⟩, _, rfl, rfl, rfl, by decide, ?_⟩
  intro h
  exact absurd h.1 (by decide)

end histogramStatistics

/-! ## The offline estimators: outlier-trimmed mean and standard deviation -/

section trimmed

variable {K : Type} [LinearOrderedField K]

theorem foldl_count_sum (p : Int → Prop) [DecidablePred p] (l : List Int) (a : Nat × K) :
    l.foldl (fun a x => if p x then (a.1 + 1, a.2 + (x : K)) else a) a
      = (a.1 + (l.filter (fun x => decide (p x))).length,
         a.2 + ((l.filter (fun x => decide (p x))).map (fun x : Int => (x : K))).sum) := by
  induction l generalizing a with
  | nil => simp
  | cons x l ih =>
    by_cases hx : p x
    · simp only [List.foldl_cons, hx, if_true, ih, List.filter_cons, decide_True,
        List.length_cons, List.map_cons, List.sum_cons]
      ext
      · simp; omega
      · simp; ring
    · simp only [List.foldl_cons, hx, if_false, ih, List.filter_cons, decide_False]
      simp

theorem foldl_cond_sum (p : Int → Prop) [DecidablePred p] (g : Int → K) (l : List Int) (a : K) :
    l.foldl (fun a x => if p x then a + g x else a) a
      = a + ((l.filter (fun x => decide (p x))).map g).sum := by
  induction l generalizing a with
  | nil => simp
  | cons x l ih =>
    by_cases hx : p x
    · simp only [List.foldl_cons, hx, if_true, ih, List.filter_cons, decide_True,
        List.map_cons, List.sum_cons]
      ring
    · simp only [List.foldl_cons, hx, if_false, ih, List.filter_cons, decide_False]
      simp

theorem computeStdDev_eq (sqrt : K → K) (xs : List Int) (h : xs ≠ []) (F : List Int)
    (hF : F = (xs.insertionSort (· ≤ ·)).filter
      (fun x => decide ((trimBounds xs).1 ≤ x ∧ x ≤ (trimBounds xs).2)))
    (m : K) (hm : m = (F.map (fun x : Int => (x : K))).sum / (F.length : K)) :
    computeStdDev sqrt xs false =
      (if F.length = 0 then (0, 0)
       else if F.length > 1 then
          (m, sqrt ((F.map (fun x : Int => ((x : K) - m) * ((x : K) - m))).sum
                / ((F.length - 1 : Nat) : K)))
       else (m, (F.map (fun x : Int => ((x : K) - m) * ((x : K) - m))).sum)) := by
  have hl : xs.length ≠ 0 := by simpa using h
  have hb1 : (trimBounds xs).1 = (xs.insertionSort (· ≤ ·)).getD (xs.length / 2) 0
      - max ((xs.insertionSort (· ≤ ·)).getD (xs.length / 2) 0
              - (xs.insertionSort (· ≤ ·)).getD (xs.length / 3) 0)
            ((xs.insertionSort (· ≤ ·)).getD (2 * xs.length / 3) 0
              - (xs.insertionSort (· ≤ ·)).getD (xs.length / 2) 0) * 5 := by
    simp only [trimBounds]; ring
  have hb2 : (trimBounds xs).2 = (xs.insertionSort (· ≤ ·)).getD (xs.length / 2) 0
      + max ((xs.insertionSort (· ≤ ·)).getD (xs.length / 2) 0
              - (xs.insertionSort (· ≤ ·)).getD (xs.length / 3) 0)
            ((xs.insertionSort (· ≤ ·)).getD (2 * xs.length / 3) 0
              - (xs.insertionSort (· ≤ ·)).getD (xs.length / 2) 0) * 5 := by
    simp only [trimBounds]; ring
  simp only [computeStdDev, hl, if_false, sortUnless, if_true, List.length_insertionSort, one_mul,
    ← hb1, ← hb2, foldl_count_sum, foldl_cond_sum, zero_add, ← hF, ← hm]
  by_cases h0 : F.length = 0
  · have hF0 : F = [] := List.length_eq_zero.1 h0
    simp [hF0]
  · simp only [h0, if_false]

theorem kept_perm (xs : List Int) :
    ((xs.insertionSort (· ≤ ·)).filter
      (fun x => decide ((trimBounds xs).1 ≤ x ∧ x ≤ (trimBounds xs).2))).Perm (keptSample xs) :=
  (List.perm_insertionSort _ xs).filter _

theorem sorted_getD_le (xs : List Int) (i j : Nat) (hij : i ≤ j) (hj : j < xs.length) :
    (xs.insertionSort (· ≤ ·)).getD i 0 ≤ (xs.insertionSort (· ≤ ·)).getD j 0 := by
  have hlen : (xs.insertionSort (· ≤ ·)).length = xs.length := List.length_insertionSort _ _
  have hj' : j < (xs.insertionSort (· ≤ ·)).length := by omega
  have hi' : i < (xs.insertionSort (· ≤ ·)).length := by omega
  rw [List.getD_eq_getElem _ 0 hi', List.getD_eq_getElem _ 0 hj']
  have hs : (xs.insertionSort (· ≤ ·)).Sorted (· ≤ ·) := List.sorted_insertionSort _ _
  have := hs.rel_get_of_le (a := ⟨i, hi'⟩) (b := ⟨j, hj'⟩) (by simpa [Fin.le_def] using hij)
  simpa using this

theorem median_mem_keptSample (xs : List Int) (h : xs ≠ []) :
    (xs.insertionSort (· ≤ ·)).getD (xs.length / 2) 0 ∈ keptSample xs := by
  have hpos : 0 < xs.length := List.length_pos.2 h
  have h2 : xs.length / 2 < xs.length := Nat.div_lt_self hpos (by norm_num)
  have hle := sorted_getD_le xs (xs.length / 3) (xs.length / 2) (by omega) h2
  have hmem : (xs.insertionSort (· ≤ ·)).getD (xs.length / 2) 0 ∈ xs := by
    rw [← List.mem_insertionSort (· ≤ ·)]
    rw [List.getD_eq_getElem _ 0 (by rw [List.length_insertionSort]; exact h2)]
    exact List.getElem_mem _
  have hmax : 0 ≤ max ((xs.insertionSort (· ≤ ·)).getD (xs.length / 2) 0
              - (xs.insertionSort (· ≤ ·)).getD (xs.length / 3) 0)
            ((xs.insertionSort (· ≤ ·)).getD (2 * xs.length / 3) 0
              - (xs.insertionSort (· ≤ ·)).getD (xs.length / 2) 0) :=
    le_max_of_le_left (by omega)
  simp only [keptSample, trimBounds, List.mem_filter, decide_eq_true_eq]
  refine ⟨hmem, ?_, ?_⟩ <;> omega

/-- C9. For a non-empty input over the exact signed integers (not flagged as sorted), with `K`
the inputs inside the bounds `[med - 5*approxStd, med + 5*approxStd]` and `k` their number
(`k ≥ 1`: the median itself is inside): `computeStdDev` sets `mean` to `sum(K)/k`; for `k > 1`
it sets `stddev` to `sqrt` of `V = sum over K of (x - mean)^2 / (k-1)`, so that `stddev^2 = V`
whenever `sqrt V` squares to `V`; for `k = 1` it sets `stddev` to 0.  Values outside the bounds
enter neither sum.  The three indices n/2, n/3 and 2n/3 are inside the sorted input. -/
theorem computeStdDev_spec (sqrt : K → K) (xs : List Int) (h : xs ≠ []) :
    (xs.length / 2 < xs.length ∧ xs.length / 3 < xs.length ∧ 2 * xs.length / 3 < xs.length) ∧
    1 ≤ (keptSample xs).length ∧
    (computeStdDev sqrt xs false).1
      = ((keptSample xs).map (fun x : Int => (x : K))).sum / ((keptSample xs).length : K) ∧
    (1 < (keptSample xs).length →
      (computeStdDev sqrt xs false).2
        = sqrt (((keptSample xs).map
            (fun x : Int => ((x : K) - (computeStdDev sqrt xs false).1) ^ 2)).sum
            / (((keptSample xs).length : K) - 1)) ∧
      (sqrt (((keptSample xs).map
            (fun x : Int => ((x : K) - (computeStdDev sqrt xs false).1) ^ 2)).sum
            / (((keptSample xs).length : K) - 1))
        * sqrt (((keptSample xs).map
            (fun x : Int => ((x : K) - (computeStdDev sqrt xs false).1) ^ 2)).sum
            / (((keptSample xs).length : K) - 1))
        = ((keptSample xs).map
            (fun x : Int => ((x : K) - (computeStdDev sqrt xs false).1) ^ 2)).sum
            / (((keptSample xs).length : K) - 1) →
       (computeStdDev sqrt xs false).2 ^ 2
        = ((keptSample xs).map
            (fun x : Int => ((x : K) - (computeStdDev sqrt xs false).1) ^ 2)).sum
            / (((keptSample xs).length : K) - 1))) ∧
    ((keptSample xs).length = 1 → (computeStdDev sqrt xs false).2 = 0) := by
  have hpos : 0 < xs.length := List.length_pos.2 h
  have hk : 1 ≤ (keptSample xs).length :=
    List.length_pos_of_mem (median_mem_keptSample xs h)
  have hp := kept_perm xs
  have hlen := hp.length_eq
  have hsum := (hp.map (fun x : Int => (x : K))).sum_eq
  have hsq : ∀ m : K,
      (((xs.insertionSort (· ≤ ·)).filter
        (fun x => decide ((trimBounds xs).1 ≤ x ∧ x ≤ (trimBounds xs).2))).map
          (fun x : Int => ((x : K) - m) * ((x : K) - m))).sum
        = ((keptSample xs).map (fun x : Int => ((x : K) - m) ^ 2)).sum := by
    intro m
    rw [(hp.map _).sum_eq]
    congr 1
    apply List.map_congr_left
    intro x _
    ring
  have he := computeStdDev_eq sqrt xs h _ rfl _ rfl
  rw [hlen, hsum] at he
  simp only [hsq] at he
  have hk0 : (keptSample xs).length ≠ 0 := by omega
  refine ⟨⟨Nat.div_lt_self hpos (by norm_num), by omega, by omega⟩, hk, ?_, ?_, ?_⟩
  · rw [he]
    by_cases h1 : (keptSample xs).length > 1
    · simp [hk0, h1]
    · simp [hk0, h1]
  · intro h1
    have hfst : (computeStdDev sqrt xs false).1
        = ((keptSample xs).map (fun x : Int => (x : K))).sum / ((keptSample xs).length : K) := by
      rw [he]; simp [hk0, h1]
    have hsnd : (computeStdDev sqrt xs false).2
        = sqrt (((keptSample xs).map
            (fun x : Int => ((x : K) - (computeStdDev sqrt xs false).1) ^ 2)).sum
            / (((keptSample xs).length : K) - 1)) := by
      rw [hfst]
      rw [he]
      simp only [hk0, h1, if_false, if_true, gt_iff_lt]
      rw [Nat.cast_sub (by omega), Nat.cast_one]
    refine ⟨hsnd, ?_⟩
    intro hs
    rw [hsnd, pow_two]
    exact hs
  · intro h1
    obtain ⟨a, ha⟩ := List.length_eq_one.1 h1
    rw [he]
    simp [ha]

/-- Witness for C9 on the input 6, 2, 4: the three hypotheses-free parts read off at a concrete
non-empty input. -/
theorem computeStdDev_spec_witness :
    ([6, 2, 4] : List Int) ≠ [] ∧
    1 ≤ (keptSample [6, 2, 4]).length ∧
    (computeStdDev (fun y : ℚ => y) [6, 2, 4] false).1
      = ((keptSample [6, 2, 4]).map (fun x : Int => (x : ℚ))).sum
          / ((keptSample [6, 2, 4]).length : ℚ) :=
  ⟨by decide, (computeStdDev_spec (fun y : ℚ => y) [6, 2, 4] (by decide)).2.1,
    (computeStdDev_spec (fun y : ℚ => y) [6, 2, 4] (by decide)).2.2.1⟩

end trimmed

/-! ## `histogramStatistics` against `genericStatistics` -/

section tallies

variable {R : Type} [CommSemiring R]

theorem tally_cons (p : Nat × Nat) (ps : List (Nat × Nat)) (i : Nat) :
    tally (p :: ps) i = (if p.1 = i then p.2 else 0) + tally ps i := by
  simp [tally]

theorem sum_range_single (f : Nat → R) (c : R) (v M : Nat) (hv : v < M) :
    ((List.range M).map (fun i => (if v = i then c else 0) * f i)).sum = c * f v := by
  induction M with
  | zero => omega
  | succ M ih =>
    rw [List.range_succ, List.map_append, List.sum_append]
    by_cases hvM : v = M
    · subst hvM
      have hz : ((List.range v).map (fun i => (if v = i then c else 0) * f i)).sum = 0 := by
        apply List.sum_eq_zero
        intro x hx
        obtain ⟨i, hi, rfl⟩ := List.mem_map.1 hx
        have : v ≠ i := by
          have := List.mem_range.1 hi
          omega
        simp [this]
      rw [hz]
      simp
    · have hlt : v < M := by omega
      rw [ih hlt]
      simp [hvM]

theorem sum_range_tally (f : Nat → R) (ps : List (Nat × Nat)) (M : Nat)
    (hM : ∀ p ∈ ps, p.1 < M) :
    ((List.range M).map (fun i => (tally ps i : R) * f i)).sum
      = (ps.map (fun p => (p.2 : R) * f p.1)).sum := by
  induction ps with
  | nil => simp [tally]
  | cons p ps ih =>
    have h1 : ∀ q ∈ ps, q.1 < M := fun q hq => hM q (List.mem_cons_of_mem _ hq)
    have h2 : p.1 < M := hM p (List.mem_cons_self _ _)
    have e : (fun i => (tally (p :: ps) i : R) * f i)
        = fun i => (if p.1 = i then (p.2 : R) else 0) * f i + (tally ps i : R) * f i := by
      funext i
      rw [tally_cons]
      by_cases hi : p.1 = i
      · simp [hi, add_mul]
      · simp [hi]
    rw [e, List.sum_map_add, ih h1, sum_range_single f _ _ _ h2]
    simp

theorem sum_samples (g : Int → R) (ps : List (Nat × Nat)) :
    ((samples ps).map g).sum = (ps.map (fun p => (p.2 : R) * g (p.1 : Int))).sum := by
  induction ps with
  | nil => simp [samples]
  | cons p ps ih =>
    have : samples (p :: ps) = List.replicate p.2 (p.1 : Int) ++ samples ps := by
      simp [samples]
    rw [this, List.map_append, List.sum_append, ih, List.map_replicate, List.sum_replicate]
    simp

theorem length_samples (ps : List (Nat × Nat)) :
    (samples ps).length = (ps.map (fun p => p.2)).sum := by
  induction ps with
  | nil => simp [samples]
  | cons p ps ih =>
    have : samples (p :: ps) = List.replicate p.2 (p.1 : Int) ++ samples ps := by
      simp [samples]
    rw [this, List.length_append, ih]
    simp

theorem tally_le_total (ps : List (Nat × Nat)) (i : Nat) :
    tally ps i ≤ (ps.map (fun p => p.2)).sum := by
  induction ps with
  | nil => simp [tally]
  | cons p ps ih =>
    rw [tally_cons, List.map_cons, List.sum_cons]
    by_cases hi : p.1 = i
    · simp only [hi, if_true]; omega
    · simp only [hi, if_false]; omega

end tallies

namespace histogramStatistics

variable {K : Type}

theorem growLoop_of_le (fuel : Nat) (s : histogramStatistics K) (data : Nat)
    (h : data ≤ s._histogramAlloc) : growLoop fuel s data = some s := by
  have hn : ¬ s._histogramAlloc < data := by omega
  cases fuel <;> simp [growLoop, hn]

theorem add_of_le (s : histogramStatistics K) (data count : Nat)
    (h : data ≤ s._histogramAlloc) :
    s.add data count = some
      { s with
        _histogramMax := if s._histogramMax < data then data else s._histogramMax,
        _histogram := Function.update s._histogram data ((s._histogram data + count) % 2 ^ 64),
        _finalized := false } := by
  rw [add, growLoop_of_le 65 s data h]
  by_cases hm : s._histogramMax < data <;> simp [hm]

theorem addAll_cons (s : histogramStatistics K) (p : Nat × Nat) (ps : List (Nat × Nat)) :
    s.addAll (p :: ps) = (s.add p.1 p.2).bind (fun t => t.addAll ps) := by
  simp [addAll, List.foldlM_cons]

theorem addAll_tally (ps : List (Nat × Nat)) (s : histogramStatistics K)
    (hf : s._finalized = false)
    (hv : ∀ p ∈ ps, p.1 ≤ s._histogramAlloc)
    (hb : ∀ i, s._histogram i + tally ps i < 2 ^ 64) :
    ∃ t : histogramStatistics K, s.addAll ps = some t ∧ t._finalized = false ∧
      t._histogramAlloc = s._histogramAlloc ∧
      (∀ i, t._histogram i = s._histogram i + tally ps i) ∧
      s._histogramMax ≤ t._histogramMax ∧ (∀ p ∈ ps, p.1 ≤ t._histogramMax) ∧
      (∀ B, s._histogramMax ≤ B → (∀ p ∈ ps, p.1 ≤ B) → t._histogramMax ≤ B) := by
  induction ps generalizing s with
  | nil => exact ⟨s, rfl, hf, rfl, by simp [tally], le_refl _, by simp, fun B hB _ => hB⟩
  | cons p ps ih =>
    have hp : p.1 ≤ s._histogramAlloc := hv p (List.mem_cons_self _ _)
    have hbp := hb p.1
    rw [tally_cons] at hbp
    simp only [if_true] at hbp
    have hmod : (s._histogram p.1 + p.2) % 2 ^ 64 = s._histogram p.1 + p.2 :=
      Nat.mod_eq_of_lt (by omega)
    obtain ⟨t, ht, htf, hta, hth, htm, htp, htB⟩ := ih
      { s with
        _histogramMax := if s._histogramMax < p.1 then p.1 else s._histogramMax,
        _histogram := Function.update s._histogram p.1 ((s._histogram p.1 + p.2) % 2 ^ 64),
        _finalized := false }
      rfl (fun q hq => hv q (List.mem_cons_of_mem _ hq))
      (by
        intro i
        have := hb i
        rw [tally_cons] at this
        by_cases hi : p.1 = i
        · subst hi
          simp only [Function.update_same, hmod]
          simp only [if_true] at this
          omega
        · simp only [Function.update_noteq (Ne.symm hi)]
          simp only [hi, if_false] at this
          omega)
    refine ⟨t, ?_, htf, hta, ?_, ?_, ?_, ?_⟩
    · rw [addAll_cons, add_of_le s p.1 p.2 hp, Option.some_bind, ht]
    · intro i
      rw [hth i, tally_cons]
      by_cases hi : p.1 = i
      · subst hi
        simp only [Function.update_same, hmod, if_true]
        omega
      · simp only [Function.update_noteq (Ne.symm hi), hi, if_false]
        omega
    · simp only at htm
      split_ifs at htm <;> omega
    · intro q hq
      rcases List.mem_cons.1 hq with rfl | hq
      · simp only at htm
        split_ifs at htm <;> omega
      · exact htp q hq
    · intro B hB hpB
      apply htB B
      · have := hpB p (List.mem_cons_self _ _)
        simp only
        split_ifs <;> omega
      · exact fun q hq => hpB q (List.mem_cons_of_mem _ hq)

theorem foldl_add_mod (h : Nat → Nat) (l : List Nat) (a : Nat)
    (hlt : a + (l.map h).sum < 2 ^ 64) :
    l.foldl (fun a ii => (a + h ii) % 2 ^ 64) a = a + (l.map h).sum := by
  induction l generalizing a with
  | nil => simp
  | cons x l ih =>
    rw [List.map_cons, List.sum_cons] at hlt
    have hm : (a + h x) % 2 ^ 64 = a + h x := Nat.mod_eq_of_lt (by omega)
    rw [List.foldl_cons, hm, ih _ (by omega), List.map_cons, List.sum_cons]
    omega

end histogramStatistics

namespace histogramStatistics

variable {K : Type} [LinearOrderedField K]

theorem foldl_add_field (g : Nat → K) (l : List Nat) (a : K) :
    l.foldl (fun a ii => a + g ii) a = a + (l.map g).sum := by
  induction l generalizing a with
  | nil => simp
  | cons x l ih =>
    rw [List.foldl_cons, ih, List.map_cons, List.sum_cons]
    ring

/-- The aggregates `_numObjs`, `_mean` and `_stddev` computed by `finalizeData` on a stale
cache, as sums over the indices `0 .. _histogramMax`, when no 64-bit operation wraps. -/
theorem finalizeData_aggregates (sqrt : K → K) (t : histogramStatistics K)
    (hf : t._finalized = false)
    (hn : ((List.range (t._histogramMax + 1)).map t._histogram).sum < 2 ^ 64)
    (hp : ∀ i ≤ t._histogramMax, i * t._histogram i < 2 ^ 64)
    (n : Nat) (hndef : n = ((List.range (t._histogramMax + 1)).map t._histogram).sum)
    (m : K) (hmdef : m = if n > 1 then
        ((List.range (t._histogramMax + 1)).map (fun i => (t._histogram i : K) * (i : K))).sum
          / (n : K)
      else
        ((List.range (t._histogramMax + 1)).map (fun i => (t._histogram i : K) * (i : K))).sum) :
    (t.finalizeData sqrt)._numObjs = n ∧ (t.finalizeData sqrt)._mean = m ∧
    (t.finalizeData sqrt)._stddev =
      if n > 1 then
        sqrt (((List.range (t._histogramMax + 1)).map
          (fun i => (t._histogram i : K) * (((i : K) - m) * ((i : K) - m)))).sum
            / ((n - 1 : Nat) : K))
      else
        ((List.range (t._histogramMax + 1)).map
          (fun i => (t._histogram i : K) * (((i : K) - m) * ((i : K) - m)))).sum := by
  have e1 : (List.range (t._histogramMax + 1)).foldl
      (fun a ii => (a + t._histogram ii) % 2 ^ 64) 0 = n := by
    rw [foldl_add_mod _ _ _ (by simpa using hn), hndef, zero_add]
  have e2 : (List.range (t._histogramMax + 1)).foldl
      (fun (a : K) ii => a + (((ii * t._histogram ii) % 2 ^ 64 : Nat) : K)) 0
      = ((List.range (t._histogramMax + 1)).map (fun i => (t._histogram i : K) * (i : K))).sum := by
    rw [foldl_add_field, zero_add]
    congr 1
    apply List.map_congr_left
    intro i hi
    have hi' : i ≤ t._histogramMax := by
      have := List.mem_range.1 hi
      omega
    rw [Nat.mod_eq_of_lt (hp i hi'), Nat.cast_mul, mul_comm]
  have e3 : ∀ m' : K, (List.range (t._histogramMax + 1)).foldl
      (fun (a : K) ii => a + (t._histogram ii : K) * ((ii : K) - m') * ((ii : K) - m')) 0
      = ((List.range (t._histogramMax + 1)).map
          (fun i => (t._histogram i : K) * (((i : K) - m') * ((i : K) - m')))).sum := by
    intro m'
    rw [foldl_add_field, zero_add]
    congr 1
    apply List.map_congr_left
    intro i _
    ring
  simp only [finalizeData, hf, clearStatistics, e1, e2, e3, ← hmdef]
  simp

end histogramStatistics

namespace genericStatistics

variable {K : Type} [LinearOrderedField K]

omit [LinearOrderedField K] in
theorem addAll_data (xs : List Int) (s : genericStatistics K) (hf : s._finalized = false) :
    (s.addAll xs)._finalized = false ∧ (s.addAll xs)._data = s._data ++ xs := by
  induction xs generalizing s with
  | nil => simp [addAll, hf]
  | cons x xs ih =>
    have := ih (s.add x) rfl
    simp only [addAll, List.foldl_cons] at this ⊢
    refine ⟨this.1, ?_⟩
    rw [this.2]
    simp [add]

theorem mean_stddev_addAll (sqrt : K → K) (xs : List Int) :
    ((new : genericStatistics K).addAll xs).mean sqrt = (computeStdDev sqrt xs false).1 ∧
    ((new : genericStatistics K).addAll xs).stddev sqrt = (computeStdDev sqrt xs false).2 := by
  obtain ⟨h1, h2⟩ := addAll_data xs (new : genericStatistics K) rfl
  have h3 : ((new : genericStatistics K).addAll xs)._data = xs := by
    rw [h2]; simp [new]
  simp [mean, stddev, finalizeData, h1, h3]

end genericStatistics

section equivalence

variable {K : Type} [LinearOrderedField K]

/-- C5, as stated, fails: for the multiset 0, 0, 0, 6 the outlier filter of `computeStdDev`
drops the value 6 (the bounds are [0, 0]), so `genericStatistics` reports mean 0 while
`histogramStatistics`, fed the counts 0:3 and 6:1, reports mean 3/2. -/
theorem generic_histogram_mean_differ :
    samples [(0, 3), (6, 1)] = [0, 0, 0, 6] ∧
    ((genericStatistics.new : genericStatistics ℚ).addAll [0, 0, 0, 6]).mean (fun y => y) = 0 ∧
    ∃ t : histogramStatistics ℚ,
      (histogramStatistics.new : histogramStatistics ℚ).addAll [(0, 3), (6, 1)] = some t ∧
      t.mean (fun y => y) = 3 / 2 := by
  refine ⟨by decide, ?_, _, rfl, ?_⟩
  · norm_num [genericStatistics.mean, genericStatistics.finalizeData, genericStatistics.addAll,
      genericStatistics.add, genericStatistics.new, computeStdDev, sortUnless,
      List.insertionSort, List.orderedInsert]
  · norm_num [histogramStatistics.mean, histogramStatistics.finalizeData,
      histogramStatistics.clearStatistics, histogramStatistics.new, List.range_succ,
      Function.update]

/-- The comparison of the two classes on the memory effect of the calls, bounds of the arrays
left aside: for values below 1048576, fewer than 2^44 of them, none dropped by the outlier
filter, `finalizeData` computes the same mean and standard deviation as `genericStatistics`. -/
theorem histogram_eq_generic_flat (sqrt : K → K) (ps : List (Nat × Nat))
    (hv : ∀ p ∈ ps, p.1 < 1024 * 1024)
    (hN : (ps.map (fun p => p.2)).sum < 2 ^ 44)
    (hkeep : keptSample (samples ps) = samples ps) :
    ∃ t : histogramStatistics K,
      (histogramStatistics.new : histogramStatistics K).addAll ps = some t ∧
      t.mean sqrt = ((genericStatistics.new : genericStatistics K).addAll (samples ps)).mean sqrt ∧
      t.stddev sqrt
        = ((genericStatistics.new : genericStatistics K).addAll (samples ps)).stddev sqrt := by
  have hle := fun i => tally_le_total ps i
  obtain ⟨t, ht, htf, -, hth, -, htp, htB⟩ :=
    histogramStatistics.addAll_tally ps (histogramStatistics.new : histogramStatistics K) rfl
      (fun p hp => le_of_lt (hv p hp))
      (fun i => by
        have := hle i
        simp only [histogramStatistics.new, histogramStatistics.clearStatistics]
        omega)
  have hth' : t._histogram = tally ps := by
    funext i
    rw [hth i]
    simp [histogramStatistics.new, histogramStatistics.clearStatistics]
  have hmax : t._histogramMax < 1024 * 1024 := by
    have := htB (1024 * 1024 - 1)
      (by simp [histogramStatistics.new, histogramStatistics.clearStatistics])
      (fun p hp => by have := hv p hp; omega)
    omega
  have hM : ∀ p ∈ ps, p.1 < t._histogramMax + 1 := fun p hp => by
    have := htp p hp; omega
  -- the three sums over the buckets, as sums over the samples
  have hcount : ((List.range (t._histogramMax + 1)).map t._histogram).sum
      = (samples ps).length := by
    have := sum_range_tally (fun _ => (1 : Nat)) ps _ hM
    simp only [mul_one, Nat.cast_id] at this
    rw [hth', this, length_samples]
  have hsumK : ∀ g : Int → K,
      ((List.range (t._histogramMax + 1)).map (fun i => (t._histogram i : K) * g (i : Int))).sum
        = ((samples ps).map g).sum := by
    intro g
    rw [hth', sum_range_tally (fun i => g (i : Int)) ps _ hM, sum_samples]
  have hS : ((List.range (t._histogramMax + 1)).map
      (fun i => (t._histogram i : K) * (i : K))).sum
        = ((samples ps).map (fun x : Int => (x : K))).sum := by
    rw [← hsumK]
    simp
  have hQ : ∀ m : K, ((List.range (t._histogramMax + 1)).map
      (fun i => (t._histogram i : K) * (((i : K) - m) * ((i : K) - m)))).sum
        = ((samples ps).map (fun x : Int => ((x : K) - m) * ((x : K) - m))).sum := by
    intro m
    rw [← hsumK]
    simp
  obtain ⟨-, hmean, hstd⟩ := histogramStatistics.finalizeData_aggregates sqrt t htf
    (by rw [hcount, length_samples]; omega)
    (fun i hi => by
      rw [hth']
      have h1 := hle i
      have h2 : i ≤ 2 ^ 20 - 1 := by omega
      have h3 : tally ps i ≤ 2 ^ 44 := by omega
      calc i * tally ps i ≤ (2 ^ 20 - 1) * 2 ^ 44 := Nat.mul_le_mul h2 h3
        _ < 2 ^ 64 := by norm_num)
    _ rfl _ rfl
  rw [hcount, hS] at hmean
  simp only [hcount, hS, hQ] at hstd
  obtain ⟨hg1, hg2⟩ := genericStatistics.mean_stddev_addAll sqrt (samples ps)
  rw [← histogramStatistics.mean] at hmean
  rw [← histogramStatistics.stddev] at hstd
  rw [hg1, hg2]
  by_cases hE : samples ps = []
  · refine ⟨t, ht, ?_, ?_⟩
    · rw [hmean, hE]; simp [computeStdDev]
    · rw [hstd, hE]; simp [computeStdDev]
  · have hpos : 0 < (samples ps).length := List.length_pos.2 hE
    have hp := kept_perm (samples ps)
    rw [hkeep] at hp
    have he := computeStdDev_eq sqrt (samples ps) hE _ rfl _ rfl
    have hsq : ∀ m : K,
        ((((samples ps).insertionSort (· ≤ ·)).filter
          (fun x => decide ((trimBounds (samples ps)).1 ≤ x ∧ x ≤ (trimBounds (samples ps)).2))).map
            (fun x : Int => ((x : K) - m) * ((x : K) - m))).sum
          = ((samples ps).map (fun x : Int => ((x : K) - m) * ((x : K) - m))).sum :=
      fun m => (hp.map _).sum_eq
    rw [hp.length_eq, (hp.map (fun x : Int => (x : K))).sum_eq] at he
    simp only [hsq] at he
    have hm1 : (if (samples ps).length > 1 then
          ((samples ps).map (fun x : Int => (x : K))).sum / ((samples ps).length : K)
        else ((samples ps).map (fun x : Int => (x : K))).sum)
        = ((samples ps).map (fun x : Int => (x : K))).sum / ((samples ps).length : K) := by
      by_cases h1 : (samples ps).length > 1
      · simp [h1]
      · have : (samples ps).length = 1 := by omega
        simp [this]
    rw [hm1] at hmean
    simp only [hm1] at hstd
    have hk0 : (samples ps).length ≠ 0 := by omega
    refine ⟨t, ht, ?_, ?_⟩
    · rw [hmean, he]
      by_cases h1 : (samples ps).length > 1 <;> simp [hk0, h1]
    · rw [hstd, he]
      by_cases h1 : (samples ps).length > 1 <;> simp [hk0, h1]

end equivalence

/-! ## `stdDev`: finalization and reachable states -/

namespace stdDev

variable {K : Type} [LinearOrderedField K]

theorem lor_high_mod_land_low (n : Nat) :
    ((n ||| 0x80000000) % 2 ^ 32) &&& 0x7fffffff = n &&& 0x7fffffff := by
  have e1 : (0x80000000 : Nat) = 2 ^ 31 := by norm_num
  have e2 : (0x7fffffff : Nat) = 2 ^ 31 - 1 := by norm_num
  rw [e1, e2]
  apply Nat.eq_of_testBit_eq
  intro i
  simp only [Nat.testBit_and, Nat.testBit_mod_two_pow, Nat.testBit_or, Nat.testBit_two_pow,
    Nat.testBit_two_pow_sub_one]
  by_cases h1 : i < 31
  · have h2 : i < 32 := by omega
    have h3 : ¬ (31 = i) := by omega
    simp [h1, h2, h3]
  · simp [h1]

theorem lor_high_mod_idem (n : Nat) :
    (((n ||| 0x80000000) % 2 ^ 32) ||| 0x80000000) % 2 ^ 32 = (n ||| 0x80000000) % 2 ^ 32 := by
  have e1 : (0x80000000 : Nat) = 2 ^ 31 := by norm_num
  rw [e1]
  apply Nat.eq_of_testBit_eq
  intro i
  simp only [Nat.testBit_mod_two_pow, Nat.testBit_or, Nat.testBit_two_pow]
  by_cases h1 : i < 32
  · by_cases h2 : 31 = i <;> simp [h1, h2]
  · simp [h1]

theorem finalize_land_high (sqrt : K → K) (s : stdDev K) :
    (s.finalize sqrt)._nn &&& 0x80000000 ≠ 0 := by
  have h := finalize_finalized sqrt s
  simpa [finalized] using h

/-- C16. For every well-formed, not finalized state, `finalize()` leaves `size()`, `mean()` and
`stddev()` as they were, and afterwards `variance()` is the square of that frozen `stddev()`
value. -/
theorem finalize_frame (sqrt : K → K) (s : stdDev K) (hwf : s._nn < 2 ^ 32)
    (hf : s.finalized = false) :
    (s.finalize sqrt).size = s.size ∧ (s.finalize sqrt).mean = s.mean ∧
    (s.finalize sqrt).stddev sqrt = s.stddev sqrt ∧
    (s.finalize sqrt).variance = s.stddev sqrt * s.stddev sqrt ∧
    (s.finalize sqrt).variance = (s.finalize sqrt).stddev sqrt ^ 2 := by
  have hb := finalize_land_high sqrt s
  have hlt : s._nn < 2 ^ 31 := (finalized_eq_false_iff s hwf).1 hf
  have h3 : (s.finalize sqrt).stddev sqrt = s.stddev sqrt := by
    rw [stddev, if_pos hb]
    rfl
  have h4 : (s.finalize sqrt).variance = s.stddev sqrt * s.stddev sqrt := by
    rw [variance, if_pos hb]
    rfl
  refine ⟨?_, rfl, h3, h4, ?_⟩
  · simp only [size, finalize]
    exact lor_high_mod_land_low s._nn
  · rw [h3, h4, pow_two]

/-- Witness for C16 at the state (mean 3, S 8, count 3). -/
theorem finalize_frame_witness :
    (new (3 : ℚ) 8 3)._nn < 2 ^ 32 ∧ (new (3 : ℚ) 8 3).finalized = false ∧
    (((new (3 : ℚ) 8 3).finalize (fun y => y)).size = (new (3 : ℚ) 8 3).size ∧
    ((new (3 : ℚ) 8 3).finalize (fun y => y)).mean = (new (3 : ℚ) 8 3).mean ∧
    ((new (3 : ℚ) 8 3).finalize (fun y => y)).stddev (fun y => y)
      = (new (3 : ℚ) 8 3).stddev (fun y => y) ∧
    ((new (3 : ℚ) 8 3).finalize (fun y => y)).variance
      = (new (3 : ℚ) 8 3).stddev (fun y => y) * (new (3 : ℚ) 8 3).stddev (fun y => y) ∧
    ((new (3 : ℚ) 8 3).finalize (fun y => y)).variance
      = ((new (3 : ℚ) 8 3).finalize (fun y => y)).stddev (fun y => y) ^ 2) :=
  ⟨by decide, by decide, finalize_frame (fun y => y) (new 3 8 3) (by decide) (by decide)⟩

/-- C19. `finalize()` is idempotent on every state, finalized or not: a second call leaves
the stored state, and hence `size()`, `mean()`, `variance()` and `stddev()`, exactly as the
first call left them. -/
theorem finalize_idempotent (sqrt : K → K) (s : stdDev K) :
    (s.finalize sqrt).finalize sqrt = s.finalize sqrt ∧
    ((s.finalize sqrt).finalize sqrt).size = (s.finalize sqrt).size ∧
    ((s.finalize sqrt).finalize sqrt).mean = (s.finalize sqrt).mean ∧
    ((s.finalize sqrt).finalize sqrt).variance = (s.finalize sqrt).variance ∧
    ((s.finalize sqrt).finalize sqrt).stddev sqrt = (s.finalize sqrt).stddev sqrt := by
  have hb := finalize_land_high sqrt s
  have h : (s.finalize sqrt).finalize sqrt = s.finalize sqrt := by
    have h1 : (s.finalize sqrt).stddev sqrt = (s.finalize sqrt)._sn := by
      rw [stddev, if_pos hb]
    have h2 : ((s.finalize sqrt)._nn ||| 0x80000000) % 2 ^ 32 = (s.finalize sqrt)._nn :=
      lor_high_mod_idem s._nn
    calc (s.finalize sqrt).finalize sqrt
        = { _mn := (s.finalize sqrt)._mn, _sn := (s.finalize sqrt).stddev sqrt,
            _nn := ((s.finalize sqrt)._nn ||| 0x80000000) % 2 ^ 32 } := rfl
      _ = { _mn := (s.finalize sqrt)._mn, _sn := (s.finalize sqrt)._sn,
            _nn := (s.finalize sqrt)._nn } := by rw [h1, h2]
  refine ⟨h, ?_, ?_, ?_, ?_⟩ <;> rw [h]

theorem reachable_insertAll (xs : List K) (s t : stdDev K) (hs : Reachable s)
    (h : s.insertAll xs = some t) : Reachable t := by
  induction xs generalizing s with
  | nil =>
    simp only [insertAll, List.foldlM_nil] at h
    cases h
    exact hs
  | cons x xs ih =>
    simp only [insertAll, List.foldlM_cons] at h
    cases hx : s.insert x with
    | none => rw [hx] at h; simp at h
    | some u =>
      rw [hx] at h
      exact ih u (Reachable.insert s u x hs hx) h

/-- C15, as stated, fails: after 2^31-1 successful inserts into the default-constructed
accumulator the state is reachable and not finalized, and its count is 2^31-1, which is not
strictly below 2^31-1. -/
theorem reachable_count_full :
    ∃ s : stdDev ℚ, Reachable s ∧ s.finalized = false ∧ s.size = 2 ^ 31 - 1 := by
  obtain ⟨s, hs, hn, -, -⟩ :=
    insertAll_welford (List.replicate (2 ^ 31 - 1) (0 : ℚ))
      (by rw [List.length_replicate]; norm_num)
  rw [List.length_replicate] at hn
  refine ⟨s, reachable_insertAll _ _ _ Reachable.init hs, ?_, ?_⟩
  · exact (finalized_eq_false_iff s (by rw [hn]; norm_num)).2 (by rw [hn]; norm_num)
  · rw [size_eq_mod, hn]; norm_num

/-- C15, amended. In every state reachable from the default-constructed accumulator by
successful `insert` and `remove` calls, the stored counter `_nn` is at most 2^31-1 (the
finalized bit is clear and `size()` reads `_nn` itself); the counter is strictly below 2^31-1
exactly in the reachable states in which `insert` still succeeds. -/
theorem reachable_count_le (s : stdDev K) (h : Reachable s) :
    s._nn ≤ 2 ^ 31 - 1 ∧ s.finalized = false ∧ s.size = s._nn ∧
    (∀ v : K, (s.insert v).isSome = true ↔ s._nn < 2 ^ 31 - 1) := by
  have key : s._nn < 2 ^ 31 := by
    induction h with
    | init => simp [new]
    | insert s t v _ hi ih =>
      have hne : s.insert v ≠ none := by rw [hi]; simp
      rw [Ne, insert_eq_none_iff] at hne
      have h1 : s._nn ≠ 0x7fffffff := fun h => hne (Or.inl h)
      have h2 : s._nn &&& 0x80000000 = 0 := land_high_eq_zero ih
      simp only [insert, h1, h2, if_false, ne_eq, not_true_eq_false, Option.some.injEq] at hi
      rw [← hi]
      simp only
      omega
    | remove s t v _ hr ih =>
      have hne : s.remove v ≠ none := by rw [hr]; simp
      rw [Ne, remove_eq_none_iff] at hne
      have h1 : s._nn ≠ 0 := fun h => hne (Or.inl h)
      have h2 : s._nn &&& 0x80000000 = 0 := land_high_eq_zero ih
      simp only [remove, h1, h2, if_false, ne_eq, not_true_eq_false, Option.some.injEq] at hr
      rw [← hr]
      simp only
      omega
  have hfin : s.finalized = false := (finalized_eq_false_iff s (by omega)).2 key
  have hsz : s.size = s._nn := by rw [size_eq_mod, Nat.mod_eq_of_lt key]
  refine ⟨by omega, hfin, hsz, fun v => ?_⟩
  rw [Option.isSome_iff_ne_none, Ne, insert_eq_none_iff, hfin]
  constructor
  · intro hn
    have : s._nn ≠ 0x7fffffff := fun h => hn (Or.inl h)
    omega
  · intro hlt hn
    rcases hn with hn | hn
    · omega
    · simp at hn

/-- Witness for the amended C15 at the state reached by `insert(2)`, `insert(4)`,
`remove(2)`: mean 4, S 0, count 1. -/
theorem reachable_count_le_witness :
    Reachable (new (4 : ℚ) 0 1) ∧
    ((new (4 : ℚ) 0 1)._nn ≤ 2 ^ 31 - 1 ∧ (new (4 : ℚ) 0 1).finalized = false ∧
      (new (4 : ℚ) 0 1).size = (new (4 : ℚ) 0 1)._nn ∧
      (∀ v : ℚ, ((new (4 : ℚ) 0 1).insert v).isSome = true ↔ (new (4 : ℚ) 0 1)._nn < 2 ^ 31 - 1)) :=
  have h1 : Reachable (new (2 : ℚ) 0 1) :=
    Reachable.insert (new : stdDev ℚ) (new 2 0 1) 2 Reachable.init
      (by norm_num [insert, new])
  have h2 : Reachable (new (3 : ℚ) 2 2) :=
    Reachable.insert (new 2 0 1) (new 3 2 2) 4 h1 (by norm_num [insert, new])
  have h3 : Reachable (new (4 : ℚ) 0 1) :=
    Reachable.remove (new 3 2 2) (new 4 0 1) 2 h2
      (by
        have hb : (2 : Nat) &&& 2147483648 = 0 := by decide
        norm_num [remove, new, hb])
  ⟨h3, reachable_count_le (new (4 : ℚ) 0 1) h3⟩

end stdDev

/-! ## The exponential moving average and empty inputs -/

section misc

variable {K : Type} [LinearOrderedField K]

/-- C17. `computeExponentialMovingAverage(alpha, ema, value)` fails exactly when `alpha < 0`
or `alpha > 1`, and otherwise returns `alpha*value + (1 - alpha)*ema`. -/
theorem computeExponentialMovingAverage_spec (alpha ema value : K) :
    (computeExponentialMovingAverage alpha ema value = none ↔ (alpha < 0 ∨ 1 < alpha)) ∧
    computeExponentialMovingAverage alpha ema value
      = if alpha < 0 ∨ 1 < alpha then none else some (alpha * value + (1 - alpha) * ema) := by
  unfold computeExponentialMovingAverage
  by_cases h0 : 0 ≤ alpha
  · by_cases h1 : alpha ≤ 1
    · have h0' : ¬ alpha < 0 := not_lt.2 h0
      have h1' : ¬ 1 < alpha := not_lt.2 h1
      simp [h0, h1, h0', h1']
    · have h1' : 1 < alpha := not_le.1 h1
      simp [h0, h1, h1']
  · have h0' : alpha < 0 := not_le.1 h0
    simp [h0, h0']

/-- C14. Empty input yields zero aggregates and no error: the three estimators on the empty
sequence, a `genericStatistics` with no `add`, and a `histogramStatistics` with no `add`. -/
theorem empty_is_zero (sqrt : K → K) (isSorted : Bool) :
    computeStdDev sqrt [] isSorted = (0, 0) ∧
    computeMode [] isSorted = 0 ∧
    computeMedianAbsoluteDeviation [] isSorted = (0, 0) ∧
    ((genericStatistics.new : genericStatistics K).numberOfObjects sqrt = 0 ∧
     (genericStatistics.new : genericStatistics K).mean sqrt = 0 ∧
     (genericStatistics.new : genericStatistics K).stddev sqrt = 0 ∧
     (genericStatistics.new : genericStatistics K).median sqrt = 0 ∧
     (genericStatistics.new : genericStatistics K).mad sqrt = 0) ∧
    ((histogramStatistics.new : histogramStatistics K).numberOfObjects sqrt = 0 ∧
     (histogramStatistics.new : histogramStatistics K).mean sqrt = 0 ∧
     (histogramStatistics.new : histogramStatistics K).stddev sqrt = 0 ∧
     (histogramStatistics.new : histogramStatistics K).median sqrt = 0 ∧
     (histogramStatistics.new : histogramStatistics K).mad sqrt = 0) := by
  have hr : List.range 1 = [0] := rfl
  refine ⟨by simp [computeStdDev], by simp [computeMode],
    by simp [computeMedianAbsoluteDeviation], ⟨?_, ?_, ?_, ?_, ?_⟩, ⟨?_, ?_, ?_, ?_, ?_⟩⟩
  · simp [genericStatistics.numberOfObjects, genericStatistics.finalizeData,
      genericStatistics.new]
  · simp [genericStatistics.mean, genericStatistics.finalizeData, genericStatistics.new,
      computeStdDev]
  · simp [genericStatistics.stddev, genericStatistics.finalizeData, genericStatistics.new,
      computeStdDev]
  · simp [genericStatistics.median, genericStatistics.finalizeData, genericStatistics.new,
      computeMedianAbsoluteDeviation]
  · simp [genericStatistics.mad, genericStatistics.finalizeData, genericStatistics.new,
      computeMedianAbsoluteDeviation]
  · simp [histogramStatistics.numberOfObjects, histogramStatistics.finalizeData,
      histogramStatistics.new, histogramStatistics.clearStatistics, hr]
  · simp [histogramStatistics.mean, histogramStatistics.finalizeData,
      histogramStatistics.new, histogramStatistics.clearStatistics, hr]
  · simp [histogramStatistics.stddev, histogramStatistics.finalizeData,
      histogramStatistics.new, histogramStatistics.clearStatistics, hr]
  · simp [histogramStatistics.median, histogramStatistics.finalizeData,
      histogramStatistics.new, histogramStatistics.clearStatistics,
      histogramStatistics.thresholdScan, hr]
  · simp [histogramStatistics.mad, histogramStatistics.finalizeData,
      histogramStatistics.new, histogramStatistics.clearStatistics,
      histogramStatistics.thresholdScan, hr]

end misc

/-! ## `s4p_IsSameRegion` -/

/-- C18, evaluated at failing inputs: a polish compared with itself under tolerance 1 (both
position differences are 0) gives 0, without exons and with one exon; indeed for every pair of
polishes and every tolerance from 1 to 2^31-1 the function returns 0.  With tolerance 0 the
same polish compared with itself gives 1. -/
theorem s4p_IsSameRegion_self_tolerance :
    s4p_IsSameRegion ⟨0, 0, []⟩ ⟨0, 0, []⟩ 1 = 0 ∧
    s4p_IsSameRegion ⟨100, 1, [⟨5, 9⟩]⟩ ⟨100, 1, [⟨5, 9⟩]⟩ 1 = 0 ∧
    |(genomicSpan ⟨100, 1, [⟨5, 9⟩]⟩).1 - (genomicSpan ⟨100, 1, [⟨5, 9⟩]⟩).1| ≤ 1 ∧
    |(genomicSpan ⟨100, 1, [⟨5, 9⟩]⟩).2 - (genomicSpan ⟨100, 1, [⟨5, 9⟩]⟩).2| ≤ 1 ∧
    s4p_IsSameRegion ⟨100, 1, [⟨5, 9⟩]⟩ ⟨100, 1, [⟨5, 9⟩]⟩ 0 = 1 ∧
    (∀ (A B : sim4polish) (tolerance : Nat), 1 ≤ tolerance → tolerance < 2 ^ 31 →
      s4p_IsSameRegion A B tolerance = 0) := by
  refine ⟨by decide, by decide, by decide, by decide, by decide, ?_⟩
  intro A B t h1 h2
  have hm : (2 ^ 32 - t % 2 ^ 32) % 2 ^ 32 = 2 ^ 32 - t := by omega
  simp only [s4p_IsSameRegion, hm]
  rw [if_pos]
  generalize toUInt32 _ = u
  omega

/-! ## `histogramStatistics`: the text dump -/

namespace histogramStatistics

variable {K : Type}

theorem foldl_append_init (l : List String) (init : String) :
    l.foldl (fun r x => r ++ x) init = init ++ l.foldl (fun r x => r ++ x) "" := by
  induction l generalizing init with
  | nil => simp
  | cons x l ih =>
    rw [List.foldl_cons, List.foldl_cons, ih (init ++ x), ih ("" ++ x)]
    simp [String.append_assoc]

theorem foldl_append_eq_join (l : List String) (init : String) :
    l.foldl (fun r x => r ++ x) init = init ++ String.join l :=
  foldl_append_init l init

theorem join_cons (x : String) (l : List String) :
    String.join (x :: l) = x ++ String.join l := by
  have h : String.join (x :: l) = l.foldl (fun r x => r ++ x) ("" ++ x) := rfl
  rw [h, foldl_append_eq_join]
  simp

theorem foldl_rows (f : Nat → String) (l : List Nat) (init : String) :
    l.foldl (fun out ii => out ++ f ii) init = init ++ String.join (l.map f) := by
  rw [← foldl_append_eq_join, List.foldl_map]

/-- C13. For every histogram state and label, the text written by `writeHistogram` is the
concatenation of `histogramMax + 2` newline-terminated lines: the header
`#<label><TAB>quantity`, then for each index `i` from 0 to `histogramMax`, in ascending order
and without skipping zero counts, the line `<i><TAB><histogram(i)>` in decimal; the counts
0:2, 1:0, 2:5 with label `len` give the four lines of the example; the object is unchanged. -/
theorem writeHistogram_spec (s : histogramStatistics K) (label : String) :
    (s.writeHistogram label).1
      = String.join ((("#" ++ label ++ "\tquantity") ::
          (List.range (s.histogramMax + 1)).map
            (fun i => Nat.repr i ++ "\t" ++ Nat.repr (s.histogram i))).map (fun l => l ++ "\n")) ∧
    ((("#" ++ label ++ "\tquantity") ::
          (List.range (s.histogramMax + 1)).map
            (fun i => Nat.repr i ++ "\t" ++ Nat.repr (s.histogram i))).length
      = s.histogramMax + 2) ∧
    (s.writeHistogram label).2 = s ∧
    (∃ t : histogramStatistics ℚ,
      ((new : histogramStatistics ℚ).add 0 2).bind (fun u => u.add 2 5) = some t ∧
      t.histogramMax = 2 ∧ t.histogram 0 = 2 ∧ t.histogram 1 = 0 ∧ t.histogram 2 = 5 ∧
      (t.writeHistogram "len").1 = "#len\tquantity\n0\t2\n1\t0\n2\t5\n") := by
  refine ⟨?_, by simp, rfl, ⟨_, rfl, by decide, by decide, by decide, by decide, by decide⟩⟩
  have hrow : s.writeRow
      = fun x => Nat.repr x ++ ("\t" ++ (Nat.repr (s._histogram x) ++ "\n")) := by
    funext x
    simp [writeRow, F_U64, String.append_assoc]
  simp only [writeHistogram, foldl_rows, List.map_cons, List.map_map, histogramMax, join_cons]
  simp [hrow, histogram, String.append_assoc, Function.comp_def]

end histogramStatistics

/-! ## `histogramStatistics`: growth of the counts array -/

namespace histogramStatistics

variable {K : Type}

end histogramStatistics

/-! ## `histogramStatistics`: lazily cached aggregates -/

namespace histogramStatistics

variable {K : Type} [LinearOrderedField K]

theorem finalizeData_frame (sqrt : K → K) (s : histogramStatistics K) :
    (s.finalizeData sqrt)._histogram = s._histogram ∧
    (s.finalizeData sqrt)._histogramMax = s._histogramMax ∧
    (s.finalizeData sqrt)._histogramAlloc = s._histogramAlloc := by
  by_cases hf : s._finalized = true
  · simp [finalizeData, hf]
  · simp [finalizeData, hf, clearStatistics]

theorem finalizeData_recompute (sqrt : K → K) (s : histogramStatistics K)
    (hf : s._finalized = false) :
    finalizeData sqrt { s.finalizeData sqrt with _finalized := false } = s.finalizeData sqrt := by
  simp only [finalizeData, hf, clearStatistics]
  rfl

theorem finalizeData_of_finalized (sqrt : K → K) (s : histogramStatistics K)
    (hf : s._finalized = true) : s.finalizeData sqrt = s := by
  simp [finalizeData, hf]

theorem run_tally (sqrt : K → K) (ops : List op) (s : histogramStatistics K)
    (hc : s._finalized = true → finalizeData sqrt { s with _finalized := false } = s)
    (hv : ∀ p ∈ adds ops, p.1 ≤ s._histogramAlloc)
    (hb : ∀ i, s._histogram i + tally (adds ops) i < 2 ^ 64) :
    ∃ t : histogramStatistics K, run sqrt s ops = some t ∧
      (t._finalized = true → finalizeData sqrt { t with _finalized := false } = t) ∧
      t._histogramAlloc = s._histogramAlloc ∧
      (∀ i, t._histogram i = s._histogram i + tally (adds ops) i) ∧
      s._histogramMax ≤ t._histogramMax ∧ (∀ p ∈ adds ops, p.1 ≤ t._histogramMax) ∧
      (∀ B, s._histogramMax ≤ B → (∀ p ∈ adds ops, p.1 ≤ B) → t._histogramMax ≤ B) := by
  induction ops generalizing s with
  | nil => exact ⟨s, rfl, hc, rfl, by simp [adds, tally], le_refl _, by simp [adds],
      fun B hB _ => hB⟩
  | cons o ops ih =>
    cases o with
    | read =>
      have hfr := finalizeData_frame sqrt s
      obtain ⟨t, ht, htc, hta, hth, htm, htp, htB⟩ := ih (s.finalizeData sqrt)
        (by
          intro _
          by_cases hf : s._finalized = true
          · rw [finalizeData_of_finalized sqrt s hf]
            exact hc hf
          · exact finalizeData_recompute sqrt s (by simpa using hf))
        (by rw [hfr.2.2]; exact hv)
        (by rw [hfr.1]; exact hb)
      refine ⟨t, ht, htc, by rw [hta, hfr.2.2], ?_, by rw [← hfr.2.1]; exact htm, htp, ?_⟩
      · intro i; rw [hth i, hfr.1]; rfl
      · intro B hB hpB
        exact htB B (by rw [hfr.2.1]; exact hB) hpB
    | add value count =>
      have hp : value ≤ s._histogramAlloc := hv (value, count) (List.mem_cons_self _ _)
      have hbp := hb value
      simp only [adds] at hbp
      rw [tally_cons] at hbp
      simp only [if_true] at hbp
      have hmod : (s._histogram value + count) % 2 ^ 64 = s._histogram value + count :=
        Nat.mod_eq_of_lt (by omega)
      obtain ⟨t, ht, htc, hta, hth, htm, htp, htB⟩ := ih
        { s with
          _histogramMax := if s._histogramMax < value then value else s._histogramMax,
          _histogram := Function.update s._histogram value
            ((s._histogram value + count) % 2 ^ 64),
          _finalized := false }
        (by intro h; simp at h)
        (fun q hq => hv q (List.mem_cons_of_mem _ hq))
        (by
          intro i
          have := hb i
          simp only [adds] at this
          rw [tally_cons] at this
          by_cases hi : value = i
          · subst hi
            simp only [Function.update_same, hmod]
            simp only [if_true] at this
            omega
          · simp only [Function.update_noteq (Ne.symm hi)]
            simp only [hi, if_false] at this
            omega)
      refine ⟨t, ?_, htc, hta, ?_, ?_, ?_, ?_⟩
      · simp only [run]
        rw [add_of_le s value count hp, Option.some_bind]
        exact ht
      · intro i
        rw [hth i]
        simp only [adds]
        rw [tally_cons]
        by_cases hi : value = i
        · subst hi
          simp only [Function.update_same, hmod, if_true]
          omega
        · simp only [Function.update_noteq (Ne.symm hi), hi, if_false]
          omega
      · simp only at htm
        split_ifs at htm <;> omega
      · intro q hq
        simp only [adds] at hq
        rcases List.mem_cons.1 hq with rfl | hq
        · simp only at htm
          split_ifs at htm <;> omega
        · exact htp q hq
      · intro B hB hpB
        apply htB B
        · have := hpB (value, count) (by simp [adds])
          simp only at this ⊢
          split_ifs <;> omega
        · exact fun q hq => hpB q (by simp only [adds]; exact List.mem_cons_of_mem _ hq)

/-- The aggregates computed by `finalizeData` on a stale cache whose buckets hold the tallies
of the pairs `ps`, as sums over `ps`. -/
theorem aggregates_of_tally (sqrt : K → K) (ps : List (Nat × Nat)) (u : histogramStatistics K)
    (hf : u._finalized = false) (hh : u._histogram = tally ps)
    (hp : ∀ p ∈ ps, p.1 ≤ u._histogramMax) (hmax : u._histogramMax < 1024 * 1024)
    (hN : (ps.map (fun p => p.2)).sum < 2 ^ 44)
    (m : K) (hm : m = if (ps.map (fun p => p.2)).sum > 1 then
        (ps.map (fun p => (p.2 : K) * (p.1 : K))).sum / (((ps.map (fun p => p.2)).sum : Nat) : K)
      else (ps.map (fun p => (p.2 : K) * (p.1 : K))).sum) :
    (u.finalizeData sqrt)._numObjs = (ps.map (fun p => p.2)).sum ∧
    (u.finalizeData sqrt)._mean = m ∧
    (u.finalizeData sqrt)._stddev =
      if (ps.map (fun p => p.2)).sum > 1 then
        sqrt ((ps.map (fun p => (p.2 : K) * (((p.1 : K) - m) * ((p.1 : K) - m)))).sum
          / (((ps.map (fun p => p.2)).sum - 1 : Nat) : K))
      else (ps.map (fun p => (p.2 : K) * (((p.1 : K) - m) * ((p.1 : K) - m)))).sum := by
  have hle := fun i => tally_le_total ps i
  have hM : ∀ p ∈ ps, p.1 < u._histogramMax + 1 := fun p h => by
    have := hp p h; omega
  have hcount : ((List.range (u._histogramMax + 1)).map u._histogram).sum
      = (ps.map (fun p => p.2)).sum := by
    have := sum_range_tally (fun _ => (1 : Nat)) ps _ hM
    simp only [mul_one, Nat.cast_id] at this
    rw [hh, this]
  have hsumK : ∀ g : Nat → K,
      ((List.range (u._histogramMax + 1)).map (fun i => (u._histogram i : K) * g i)).sum
        = (ps.map (fun p => (p.2 : K) * g p.1)).sum := by
    intro g
    rw [hh, sum_range_tally g ps _ hM]
  obtain ⟨h1, h2, h3⟩ := finalizeData_aggregates sqrt u hf
    (by rw [hcount]; omega)
    (fun i hi => by
      rw [hh]
      have h1 := hle i
      have h2 : i ≤ 2 ^ 20 - 1 := by omega
      have h3 : tally ps i ≤ 2 ^ 44 := by omega
      calc i * tally ps i ≤ (2 ^ 20 - 1) * 2 ^ 44 := Nat.mul_le_mul h2 h3
        _ < 2 ^ 64 := by norm_num)
    _ rfl _ rfl
  rw [hcount, hsumK (fun i => (i : K))] at h2
  rw [← hm] at h2
  simp only [hcount, hsumK (fun i => (i : K)), ← hm] at h3
  rw [hsumK (fun i => ((i : K) - m) * ((i : K) - m))] at h3
  exact ⟨by rw [h1, hcount], h2, h3⟩

end histogramStatistics

namespace histogramStatistics

variable {K : Type} [LinearOrderedField K]

/-- The aggregates read after a sequence of calls, on the memory effect of the calls, bounds
of the arrays left aside: for values below 1048576 and fewer than 2^44 objects, the object
left by a last `finalizeData` holds the count, the mean and the standard deviation of the
values added, whatever reads came earlier. -/
theorem run_read_flat (sqrt : K → K) (ops : List op)
    (hv : ∀ p ∈ adds ops, p.1 < 1024 * 1024)
    (hN : ((adds ops).map (fun p => p.2)).sum < 2 ^ 44) :
    ∃ t : histogramStatistics K, run sqrt (new : histogramStatistics K) ops = some t ∧
      t.numberOfObjects sqrt = ((adds ops).map (fun p => p.2)).sum ∧
      (1 ≤ ((adds ops).map (fun p => p.2)).sum →
        t.mean sqrt = ((adds ops).map (fun p => (p.1 : K) * (p.2 : K))).sum
          / ((((adds ops).map (fun p => p.2)).sum : Nat) : K)) ∧
      (2 ≤ ((adds ops).map (fun p => p.2)).sum →
        t.stddev sqrt
          = sqrt (((adds ops).map (fun p => (p.2 : K) * ((p.1 : K) - t.mean sqrt) ^ 2)).sum
              / (((((adds ops).map (fun p => p.2)).sum : Nat) : K) - 1)) ∧
        (sqrt (((adds ops).map (fun p => (p.2 : K) * ((p.1 : K) - t.mean sqrt) ^ 2)).sum
              / (((((adds ops).map (fun p => p.2)).sum : Nat) : K) - 1))
          * sqrt (((adds ops).map (fun p => (p.2 : K) * ((p.1 : K) - t.mean sqrt) ^ 2)).sum
              / (((((adds ops).map (fun p => p.2)).sum : Nat) : K) - 1))
          = ((adds ops).map (fun p => (p.2 : K) * ((p.1 : K) - t.mean sqrt) ^ 2)).sum
              / (((((adds ops).map (fun p => p.2)).sum : Nat) : K) - 1) →
         t.stddev sqrt ^ 2
          = ((adds ops).map (fun p => (p.2 : K) * ((p.1 : K) - t.mean sqrt) ^ 2)).sum
              / (((((adds ops).map (fun p => p.2)).sum : Nat) : K) - 1))) := by
  have hle := fun i => tally_le_total (adds ops) i
  obtain ⟨t, ht, htc, -, hth, -, htp, htB⟩ :=
    run_tally sqrt ops (new : histogramStatistics K)
      (by intro h; simp [new, clearStatistics] at h)
      (fun p hp => le_of_lt (hv p hp))
      (fun i => by
        have := hle i
        simp only [new, clearStatistics]
        omega)
  have hmax : t._histogramMax < 1024 * 1024 := by
    have := htB (1024 * 1024 - 1) (by simp [new, clearStatistics])
      (fun p hp => by have := hv p hp; omega)
    omega
  -- a read on `t` is a recomputation on `t` with a stale cache
  have hread : t.finalizeData sqrt = finalizeData sqrt { t with _finalized := false } := by
    by_cases hf : t._finalized = true
    · rw [htc hf, finalizeData_of_finalized sqrt t hf]
    · have hf' : t._finalized = false := by simpa using hf
      have : ({ t with _finalized := false } : histogramStatistics K) = t := by
        cases t
        simp only at hf'
        subst hf'
        rfl
      rw [this]
  obtain ⟨h1, h2, h3⟩ := aggregates_of_tally sqrt (adds ops) { t with _finalized := false } rfl
    (by
      funext i
      simp only
      rw [hth i]
      simp [new, clearStatistics])
    htp hmax hN _ rfl
  rw [← hread] at h1 h2 h3
  have hmean1 : 1 ≤ ((adds ops).map (fun p => p.2)).sum →
      t.mean sqrt = ((adds ops).map (fun p => (p.1 : K) * (p.2 : K))).sum
          / ((((adds ops).map (fun p => p.2)).sum : Nat) : K) := by
    intro hn
    have hc : (adds ops).map (fun p => (p.2 : K) * (p.1 : K))
        = (adds ops).map (fun p => (p.1 : K) * (p.2 : K)) :=
      List.map_congr_left (fun p _ => mul_comm _ _)
    rw [mean, h2, hc]
    by_cases hgt : ((adds ops).map (fun p => p.2)).sum > 1
    · simp [hgt]
    · have : ((adds ops).map (fun p => p.2)).sum = 1 := by omega
      simp [this]
  refine ⟨t, ht, h1, hmean1, ?_⟩
  intro hn
  have hgt : ((adds ops).map (fun p => p.2)).sum > 1 := by omega
  have hsq : ∀ m : K, (adds ops).map (fun p => (p.2 : K) * (((p.1 : K) - m) * ((p.1 : K) - m)))
      = (adds ops).map (fun p => (p.2 : K) * ((p.1 : K) - m) ^ 2) :=
    fun m => List.map_congr_left (fun p _ => by ring)
  have hstd : t.stddev sqrt
      = sqrt (((adds ops).map (fun p => (p.2 : K) * ((p.1 : K) - t.mean sqrt) ^ 2)).sum
          / (((((adds ops).map (fun p => p.2)).sum : Nat) : K) - 1)) := by
    rw [stddev, h3, mean, h2]
    simp only [hgt, if_true, hsq]
    rw [Nat.cast_sub (by omega), Nat.cast_one]
  refine ⟨hstd, fun hs => ?_⟩
  rw [hstd, pow_two]
  exact hs

end histogramStatistics

/-! ## `computeMode` returns a most frequent value -/

section mode

theorem scanWeight_le (p : List Int) (v : Int) : scanWeight p v ≤ p.count v + 1 := by
  unfold scanWeight
  split_ifs <;> omega

theorem count_le_scanWeight (p : List Int) (v : Int) : p.count v ≤ scanWeight p v := by
  unfold scanWeight
  omega

theorem scanWeight_of_not_lead (p : List Int) (v : Int) (h : ¬ (v = 0 ∧ p.head? = some 0)) :
    scanWeight p v = p.count v + 1 := by
  simp [scanWeight, h]

theorem scanWeight_of_lead (p : List Int) (v : Int) (h : v = 0 ∧ p.head? = some 0) :
    scanWeight p v = p.count v := by
  simp [scanWeight, h]

theorem scanWeight_pos (p : List Int) (v : Int) (h : v ∈ p) : 1 ≤ scanWeight p v := by
  have := List.count_pos_iff.2 h
  have := count_le_scanWeight p v
  omega

theorem scanWeight_append_ne (q : List Int) (x v : Int) (hq : q ≠ []) (hx : x ≠ v) :
    scanWeight (q ++ [x]) v = scanWeight q v := by
  have hh : (q ++ [x]).head? = q.head? := by
    cases q with
    | nil => exact absurd rfl hq
    | cons a l => rfl
  simp [scanWeight, hh, List.count_append, List.count_singleton, hx]

theorem scanWeight_append_self (q : List Int) (x : Int) (hq : q ≠ []) :
    scanWeight (q ++ [x]) x = scanWeight q x + 1 := by
  have hh : (q ++ [x]).head? = q.head? := by
    cases q with
    | nil => exact absurd rfl hq
    | cons a l => rfl
  simp only [scanWeight, hh, List.count_append, List.count_singleton, beq_self_eq_true, if_true]
  omega

theorem zero_le_of_head (p : List Int) (hs : p.Sorted (· ≤ ·)) (hh : p.head? = some 0)
    (v : Int) (hv : v ∈ p) : 0 ≤ v := by
  cases p with
  | nil => simp at hh
  | cons a l =>
    simp only [List.head?_cons, Option.some.injEq] at hh
    subst hh
    rcases List.mem_cons.1 hv with rfl | hv
    · exact le_refl _
    · exact List.rel_of_sorted_cons hs v hv

theorem modeScan.inv_singleton (x : Int) :
    modeScan.inv [x] (modeScan.step
      { modeCnt := 0, modeVal := 0, modeTmpCnt := 0, modeTmpVal := 0 } x) := by
  by_cases hx : x = 0
  · subst hx
    refine ⟨?_, ?_, ?_, ?_, Or.inl ?_⟩ <;> simp [modeScan.step, scanWeight]
  · refine ⟨?_, ?_, ?_, ?_, Or.inl ?_⟩ <;>
      simp [modeScan.step, modeScan.commit, scanWeight, hx]

theorem modeScan.inv_step (q : List Int) (x : Int) (st : modeScan) (hq : q ≠ [])
    (hs : (q ++ [x]).Sorted (· ≤ ·)) (hlen : q.length + 2 < 2 ^ 32)
    (hinv : modeScan.inv q st) : modeScan.inv (q ++ [x]) (st.step x) := by
  obtain ⟨h1, h2, h3, h4, h5⟩ := hinv
  have hle : ∀ v ∈ q, v ≤ x := by
    intro v hv
    have := (List.pairwise_append.1 hs).2.2 v hv x (by simp)
    exact this
  have hmem : ∀ v, v ∈ q ++ [x] ↔ v ∈ q ∨ v = x := by
    intro v; simp
  by_cases hx : x = st.modeTmpVal
  · -- the current run goes on
    have hcnt : st.modeTmpCnt + 1 < 4294967296 := by
      have := scanWeight_le q st.modeTmpVal
      have := List.count_le_length (a := st.modeTmpVal) (l := q)
      omega
    have hstep : st.step x = { st with modeTmpCnt := st.modeTmpCnt + 1 } := by
      simp [modeScan.step, hx, Nat.mod_eq_of_lt hcnt]
    rw [hstep]
    subst hx
    refine ⟨?_, ?_, ?_, ?_, ?_⟩
    · simp
    · intro v hv
      rcases (hmem v).1 hv with hv | hv
      · exact h2 v hv
      · exact le_of_eq hv
    · simp only
      rw [scanWeight_append_self q _ hq, h3]
    · intro v hv hne
      simp only at hne ⊢
      rcases (hmem v).1 hv with hv | hv
      · rw [scanWeight_append_ne q _ v hq (Ne.symm hne)]
        exact h4 v hv hne
      · exact absurd hv hne
    · rcases h5 with h5 | ⟨a, b, c, d⟩
      · exact Or.inl h5
      · refine Or.inr ⟨by simp [a], b, ?_, ?_⟩
        · simp only
          rw [scanWeight_append_ne q _ _ hq (Ne.symm b)]
          exact c
        · intro v hv hlt
          simp only at hlt ⊢
          rcases (hmem v).1 hv with hv | hv
          · by_cases hvt : v = st.modeTmpVal
            · have := h2 st.modeVal a
              omega
            · rw [scanWeight_append_ne q _ v hq (Ne.symm hvt)]
              exact d v hv hlt
          · have := h2 st.modeVal a
            omega
  · -- a new run starts
    have hlt : st.modeTmpVal < x := lt_of_le_of_ne (hle _ h1) (Ne.symm hx)
    have hxq : x ∉ q := fun h => by
      have := h2 x h
      omega
    have hwx : scanWeight (q ++ [x]) x = 2 := by
      have hh : (q ++ [x]).head? = q.head? := by
        cases q with
        | nil => exact absurd rfl hq
        | cons a l => rfl
      have hnl : ¬ (x = 0 ∧ (q ++ [x]).head? = some 0) := by
        rintro ⟨hx0, hh0⟩
        rw [hh] at hh0
        have hmem0 : (0 : Int) ∈ q := by
          cases q with
          | nil => simp at hh0
          | cons a l =>
            simp only [List.head?_cons, Option.some.injEq] at hh0
            simp [hh0]
        have := h2 0 hmem0
        omega
      rw [scanWeight_of_not_lead _ _ hnl, List.count_append, List.count_singleton,
        List.count_eq_zero_of_not_mem hxq]
      simp
    have hw : ∀ v ∈ q, scanWeight (q ++ [x]) v = scanWeight q v := by
      intro v hv
      exact scanWeight_append_ne q x v hq (fun h => hxq (h ▸ hv))
    have htpos : 1 ≤ st.modeTmpCnt := by
      rw [h3]; exact scanWeight_pos q _ h1
    by_cases hc : st.modeCnt < st.modeTmpCnt
    · have hstep : st.step x = (⟨st.modeTmpCnt, st.modeTmpVal, 2, x⟩ : modeScan) := by
        simp [modeScan.step, modeScan.commit, hx, hc]
      rw [hstep]
      refine ⟨by simp, ?_, by simp only; exact hwx.symm, ?_, Or.inr ⟨by simp [h1], ?_, ?_, ?_⟩⟩
      · intro v hv
        rcases (hmem v).1 hv with hv | hv
        · exact hle v hv
        · exact le_of_eq hv
      · intro v hv hne
        simp only at hne ⊢
        rcases (hmem v).1 hv with hv | hv
        · rw [hw v hv]
          by_cases hvt : v = st.modeTmpVal
          · rw [hvt, ← h3]
          · have := h4 v hv hvt
            omega
        · exact absurd hv hne
      · simp only; omega
      · simp only
        rw [hw _ h1, h3]
      · intro v hv hvlt
        simp only at hvlt ⊢
        rcases (hmem v).1 hv with hv | hv
        · rw [hw v hv]
          have := h4 v hv (by omega)
          omega
        · omega
    · have hstep : st.step x = (⟨st.modeCnt, st.modeVal, 2, x⟩ : modeScan) := by
        simp [modeScan.step, modeScan.commit, hx, hc]
      rw [hstep]
      have hm0 : st.modeCnt ≠ 0 := by omega
      rcases h5 with h5 | ⟨a, b, c, d⟩
      · exact absurd h5 hm0
      · refine ⟨by simp, ?_, by simp only; exact hwx.symm, ?_,
          Or.inr ⟨by simp [a], ?_, ?_, ?_⟩⟩
        · intro v hv
          rcases (hmem v).1 hv with hv | hv
          · exact hle v hv
          · exact le_of_eq hv
        · intro v hv hne
          simp only at hne ⊢
          rcases (hmem v).1 hv with hv | hv
          · rw [hw v hv]
            by_cases hvt : v = st.modeTmpVal
            · rw [hvt, ← h3]; omega
            · exact h4 v hv hvt
          · exact absurd hv hne
        · simp only
          intro h
          exact hxq (h ▸ a)
        · simp only
          rw [hw _ a]; exact c
        · intro v hv hvlt
          simp only at hvlt ⊢
          rcases (hmem v).1 hv with hv | hv
          · rw [hw v hv]
            exact d v hv hvlt
          · have := hle _ a
            omega

theorem modeScan.inv_foldl (p : List Int) (hne : p ≠ []) (hs : p.Sorted (· ≤ ·))
    (hlen : p.length + 1 < 2 ^ 32) :
    modeScan.inv p (p.foldl modeScan.step
      { modeCnt := 0, modeVal := 0, modeTmpCnt := 0, modeTmpVal := 0 }) := by
  induction p using List.reverseRecOn with
  | nil => exact absurd rfl hne
  | append_singleton q x ih =>
    rw [List.foldl_append, List.foldl_cons, List.foldl_nil]
    by_cases hq : q = []
    · subst hq
      exact modeScan.inv_singleton x
    · rw [List.length_append, List.length_singleton] at hlen
      exact modeScan.inv_step q x _ hq hs (by omega)
        (ih hq (List.pairwise_append.1 hs).1 (by omega))

theorem modeScan.commit_mode (p : List Int) (st : modeScan) (hs : p.Sorted (· ≤ ·))
    (hinv : modeScan.inv p st) :
    st.commit.modeVal ∈ p ∧ ∀ v, p.count v ≤ p.count st.commit.modeVal := by
  obtain ⟨h1, h2, h3, h4, h5⟩ := hinv
  have hnotmem : ∀ v, v ∉ p → ∀ r, p.count v ≤ p.count r := by
    intro v hv r
    rw [List.count_eq_zero_of_not_mem hv]
    exact Nat.zero_le _
  by_cases hc : st.modeCnt < st.modeTmpCnt
  · have hr : st.commit.modeVal = st.modeTmpVal := by simp [modeScan.commit, hc]
    rw [hr]
    refine ⟨h1, fun v => ?_⟩
    by_cases hv : v ∈ p
    · by_cases hvt : v = st.modeTmpVal
      · rw [hvt]
      · have a := h4 v hv hvt
        have b := count_le_scanWeight p v
        have c := scanWeight_le p st.modeTmpVal
        omega
    · exact hnotmem v hv _
  · have hr : st.commit.modeVal = st.modeVal := by simp [modeScan.commit, hc]
    rw [hr]
    have htpos : 1 ≤ st.modeTmpCnt := by
      rw [h3]; exact scanWeight_pos p _ h1
    rcases h5 with h5 | ⟨a, b, c, d⟩
    · omega
    · refine ⟨a, fun v => ?_⟩
      by_cases hv : v ∈ p
      · have hwle : scanWeight p v ≤ scanWeight p st.modeVal := by
          by_cases hvt : v = st.modeTmpVal
          · rw [hvt, ← h3, c]; omega
          · rw [c]; exact h4 v hv hvt
        by_cases hlv : v = 0 ∧ p.head? = some 0
        · by_cases hlr : st.modeVal = 0 ∧ p.head? = some 0
          · rw [scanWeight_of_lead p v hlv, scanWeight_of_lead p _ hlr] at hwle
            exact hwle
          · have hr0 : st.modeVal ≠ 0 := fun h => hlr ⟨h, hlv.2⟩
            have hpos := zero_le_of_head p hs hlv.2 st.modeVal a
            have hlt : v < st.modeVal := by
              rw [hlv.1]
              exact lt_of_le_of_ne hpos (Ne.symm hr0)
            have hstrict := d v hv hlt
            rw [← c, scanWeight_of_lead p v hlv, scanWeight_of_not_lead p _ hlr] at hstrict
            omega
        · rw [scanWeight_of_not_lead p v hlv] at hwle
          have := scanWeight_le p st.modeVal
          omega
      · exact hnotmem v hv _

/-- C20. For every non-empty input with fewer than 2^32-1 elements (not flagged as sorted),
the value returned by `computeMode` is an element of the input and no value occurs more often
in the input than it does: it is always a true mode. -/
theorem computeMode_is_mode (xs : List Int) (hne : xs ≠ []) (hlen : xs.length < 2 ^ 32 - 1) :
    computeMode xs false ∈ xs ∧ ∀ v, xs.count v ≤ xs.count (computeMode xs false) := by
  have hl : xs.length ≠ 0 := by simpa using hne
  have hperm := List.perm_insertionSort (· ≤ ·) xs
  have hsorted : (xs.insertionSort (· ≤ ·)).Sorted (· ≤ ·) := List.sorted_insertionSort _ _
  have hne' : xs.insertionSort (· ≤ ·) ≠ [] := by
    intro h
    apply hl
    rw [← List.length_insertionSort (· ≤ ·) xs, h]
    rfl
  have hinv := modeScan.inv_foldl (xs.insertionSort (· ≤ ·)) hne' hsorted
    (by rw [List.length_insertionSort]; omega)
  obtain ⟨hm, hc⟩ := modeScan.commit_mode _ _ hsorted hinv
  have he : computeMode xs false
      = ((xs.insertionSort (· ≤ ·)).foldl modeScan.step
          { modeCnt := 0, modeVal := 0, modeTmpCnt := 0, modeTmpVal := 0 }).commit.modeVal := by
    simp [computeMode, hl, sortUnless]
  rw [he]
  refine ⟨hperm.mem_iff.1 hm, fun v => ?_⟩
  rw [← hperm.count_eq v, ← hperm.count_eq]
  exact hc v

/-- Witness for C20 on the input 0, 0, 1, 1, where the tie is resolved towards 1. -/
theorem computeMode_is_mode_witness :
    ([0, 0, 1, 1] : List Int) ≠ [] ∧ ([0, 0, 1, 1] : List Int).length < 2 ^ 32 - 1 ∧
    (computeMode [0, 0, 1, 1] false ∈ ([0, 0, 1, 1] : List Int) ∧
      ∀ v, ([0, 0, 1, 1] : List Int).count v
        ≤ ([0, 0, 1, 1] : List Int).count (computeMode [0, 0, 1, 1] false)) :=
  ⟨by decide, by decide, computeMode_is_mode [0, 0, 1, 1] (by decide) (by decide)⟩

end mode

/-! ## `histogramStatistics`: calls with the array bounds -/

namespace histogramStatistics

variable {K : Type}

theorem growLoopChecked_refines :
    ∀ (fuel : Nat) (s t : histogramStatistics K) (data : Nat),
      growLoopChecked fuel s data = some t → growLoop fuel s data = some t := by
  intro fuel
  induction fuel with
  | zero =>
    intro s t data h
    simpa [growLoopChecked, growLoop] using h
  | succ fuel ih =>
    intro s t data h
    by_cases hlt : s._histogramAlloc < data
    · by_cases hc : (s._histogramMax + 1) % 2 ^ 64 ≤ s._histogramAlloc
      · simp only [growLoopChecked, hlt, if_true, hc] at h
        simp only [growLoop, hlt, if_true]
        exact ih _ _ _ h
      · simp only [growLoopChecked, hlt, if_true, hc, if_false] at h
        cases h
    · simpa [growLoopChecked, growLoop, hlt] using h

theorem addChecked_refines (s t : histogramStatistics K) (data count : Nat)
    (h : s.addChecked data count = some t) : s.add data count = some t := by
  simp only [addChecked, Option.bind_eq_some] at h
  obtain ⟨g, hg, hgt⟩ := h
  by_cases hb : data < g._histogramAlloc
  · simp only [hb, if_true, Option.some.injEq] at hgt
    rw [add, growLoopChecked_refines 65 s g data hg, Option.map_some', hgt]
  · simp [hb] at hgt

theorem addChecked_of_lt (s : histogramStatistics K) (data count : Nat)
    (h : data < s._histogramAlloc) : s.addChecked data count = s.add data count := by
  have hn : ¬ s._histogramAlloc < data := by omega
  have h1 : growLoopChecked 65 s data = some s := by simp [growLoopChecked, hn]
  have h2 : growLoop 65 s data = some s := by simp [growLoop, hn]
  simp [addChecked, add, h1, h2, h]

theorem addAllChecked_eq (ps : List (Nat × Nat)) (s : histogramStatistics K)
    (hv : ∀ p ∈ ps, p.1 < s._histogramAlloc) : s.addAllChecked ps = s.addAll ps := by
  induction ps generalizing s with
  | nil => rfl
  | cons p ps ih =>
    have hp : p.1 < s._histogramAlloc := hv p (List.mem_cons_self _ _)
    simp only [addAllChecked, addAll, List.foldlM_cons]
    rw [addChecked_of_lt s p.1 p.2 hp, add_of_le s p.1 p.2 (le_of_lt hp)]
    exact ih _ (fun q hq => hv q (List.mem_cons_of_mem _ hq))

theorem thresholdScan_bound (cells : Nat → Nat) (half : Nat) (idx : List Nat) (acc : Nat) :
    thresholdScan cells half idx acc ∈ idx ∨
      thresholdScan cells half idx acc ≤ acc + (idx.map cells).sum := by
  induction idx generalizing acc with
  | nil => right; simp [thresholdScan]
  | cons ii rest ih =>
    by_cases h : acc < half
    · simp only [thresholdScan, h, if_true]
      rcases ih ((acc + cells ii) % 2 ^ 64) with h1 | h1
      · left; exact List.mem_cons_of_mem _ h1
      · right
        have := Nat.mod_le (acc + cells ii) (2 ^ 64)
        simp only [List.map_cons, List.sum_cons]
        omega
    · left
      simp [thresholdScan, h]

end histogramStatistics

namespace histogramStatistics

variable {K : Type} [LinearOrderedField K]

theorem finalizeDataChecked_refines (sqrt : K → K) (s t : histogramStatistics K)
    (h : s.finalizeDataChecked sqrt = some t) : t = s.finalizeData sqrt := by
  by_cases hf : s._finalized = true
  · simp only [finalizeDataChecked, hf, if_true, Option.some.injEq] at h
    rw [finalizeData_of_finalized sqrt s hf, h]
  · rw [finalizeDataChecked, if_neg hf] at h
    split_ifs at h
    exact (Option.some.inj h).symm

theorem finalizeData_median (sqrt : K → K) (s : histogramStatistics K)
    (hf : s._finalized = false) :
    ∃ half : Nat, (s.finalizeData sqrt)._median
      = thresholdScan s._histogram half (List.range (s._histogramMax + 1)) 0 := by
  simp only [finalizeData, hf, clearStatistics]
  exact ⟨_, rfl⟩

/-- A read is inside both arrays when the maximum valid index is below the capacity and the
buckets hold fewer objects than the capacity. -/
theorem finalizeDataChecked_of_small (sqrt : K → K) (s : histogramStatistics K)
    (hmax : s._histogramMax < s._histogramAlloc)
    (hsum : ((List.range (s._histogramMax + 1)).map s._histogram).sum < s._histogramAlloc) :
    s.finalizeDataChecked sqrt = some (s.finalizeData sqrt) := by
  by_cases hf : s._finalized = true
  · simp [finalizeDataChecked, hf, finalizeData_of_finalized sqrt s hf]
  · have hf' : s._finalized = false := by simpa using hf
    obtain ⟨half, hm⟩ := finalizeData_median sqrt s hf'
    have hlt : (s.finalizeData sqrt)._median < s._histogramAlloc := by
      rw [hm]
      rcases thresholdScan_bound s._histogram half (List.range (s._histogramMax + 1)) 0
        with h1 | h1
      · have := List.mem_range.1 h1
        omega
      · omega
    have hall : (List.range (s._histogramMax + 1)).all (fun ii =>
        decide ((if ii < (s.finalizeData sqrt)._median then (s.finalizeData sqrt)._median - ii
          else ii - (s.finalizeData sqrt)._median) < s._histogramAlloc)) = true := by
      rw [List.all_eq_true]
      intro ii hii
      have := List.mem_range.1 hii
      simp only [decide_eq_true_eq]
      split_ifs <;> omega
    rw [finalizeDataChecked, if_neg hf, if_pos ⟨hmax, hall⟩]

end histogramStatistics

namespace histogramStatistics

variable {K : Type} [LinearOrderedField K]

theorem runChecked_refines (sqrt : K → K) (ops : List op) (s t : histogramStatistics K)
    (h : runChecked sqrt s ops = some t) : run sqrt s ops = some t := by
  induction ops generalizing s with
  | nil => simpa [runChecked, run] using h
  | cons o ops ih =>
    cases o with
    | add value count =>
      simp only [runChecked, Option.bind_eq_some] at h
      obtain ⟨u, hu, hr⟩ := h
      simp only [run, addChecked_refines s u value count hu, Option.some_bind]
      exact ih u hr
    | read =>
      simp only [runChecked, Option.bind_eq_some] at h
      obtain ⟨u, hu, hr⟩ := h
      simp only [run]
      rw [← finalizeDataChecked_refines sqrt s u hu]
      exact ih u hr

theorem runChecked_append (sqrt : K → K) (l1 l2 : List op) (s : histogramStatistics K) :
    runChecked sqrt s (l1 ++ l2) = (runChecked sqrt s l1).bind (fun t => runChecked sqrt t l2) := by
  induction l1 generalizing s with
  | nil => simp [runChecked]
  | cons o l1 ih =>
    cases o with
    | add value count =>
      simp only [List.cons_append, runChecked]
      cases s.addChecked value count with
      | none => rfl
      | some u => simp [ih]
    | read =>
      simp only [List.cons_append, runChecked]
      cases s.finalizeDataChecked sqrt with
      | none => rfl
      | some u => simp [ih]

omit [LinearOrderedField K] in
theorem adds_append (l1 l2 : List op) : adds (l1 ++ l2) = adds l1 ++ adds l2 := by
  induction l1 with
  | nil => rfl
  | cons o l1 ih =>
    cases o with
    | add value count => simp [adds, ih]
    | read => simp [adds, ih]

/-- The shape of the object after a sequence of calls on the fresh histogram: the capacity is
still 1048576, the maximum valid index is below it and the buckets up to that index hold as
many objects as were added. -/
theorem run_new_shape (sqrt : K → K) (ops : List op) (t : histogramStatistics K)
    (hv : ∀ p ∈ adds ops, p.1 < 1024 * 1024)
    (hN : ((adds ops).map (fun p => p.2)).sum < 2 ^ 44)
    (h : run sqrt (new : histogramStatistics K) ops = some t) :
    t._histogramAlloc = 1024 * 1024 ∧ t._histogramMax < 1024 * 1024 ∧
    ((List.range (t._histogramMax + 1)).map t._histogram).sum
      = ((adds ops).map (fun p => p.2)).sum := by
  have hle := fun i => tally_le_total (adds ops) i
  obtain ⟨u, hu, -, hta, hth, -, htp, htB⟩ :=
    run_tally sqrt ops (new : histogramStatistics K)
      (by intro h; simp [new, clearStatistics] at h)
      (fun p hp => le_of_lt (hv p hp))
      (fun i => by
        have := hle i
        simp only [new, clearStatistics]
        omega)
  rw [h] at hu
  cases hu
  have hmax : t._histogramMax < 1024 * 1024 := by
    have := htB (1024 * 1024 - 1) (by simp [new, clearStatistics])
      (fun p hp => by have := hv p hp; omega)
    omega
  have hh : t._histogram = tally (adds ops) := by
    funext i
    rw [hth i]
    simp [new, clearStatistics]
  have hM : ∀ p ∈ adds ops, p.1 < t._histogramMax + 1 := fun p hp => by
    have := htp p hp; omega
  refine ⟨by rw [hta]; simp [new, clearStatistics], hmax, ?_⟩
  have := sum_range_tally (fun _ => (1 : Nat)) (adds ops) _ hM
  simp only [mul_one, Nat.cast_id] at this
  rw [hh, this]

theorem runChecked_some (sqrt : K → K) (ops : List op)
    (hv : ∀ p ∈ adds ops, p.1 < 1024 * 1024)
    (hN : ((adds ops).map (fun p => p.2)).sum < 1024 * 1024) :
    ∃ t : histogramStatistics K, runChecked sqrt (new : histogramStatistics K) ops = some t := by
  induction ops using List.reverseRecOn with
  | nil => exact ⟨new, rfl⟩
  | append_singleton ops o ih =>
    rw [adds_append] at hv hN
    rw [List.map_append, List.sum_append] at hN
    have hv1 : ∀ p ∈ adds ops, p.1 < 1024 * 1024 :=
      fun p hp => hv p (List.mem_append_left _ hp)
    obtain ⟨t, ht⟩ := ih hv1 (by omega)
    obtain ⟨ha, hm, hs⟩ := run_new_shape sqrt ops t hv1 (by omega)
      (runChecked_refines sqrt ops _ t ht)
    rw [runChecked_append, ht, Option.some_bind]
    cases o with
    | add value count =>
      have hval : value < t._histogramAlloc := by
        rw [ha]
        exact hv (value, count) (List.mem_append_right _ (by simp [adds]))
      simp only [runChecked]
      rw [addChecked_of_lt t value count hval, add_of_le t value count (le_of_lt hval)]
      exact ⟨_, rfl⟩
    | read =>
      simp only [runChecked]
      rw [finalizeDataChecked_of_small sqrt t (by omega) (by omega)]
      exact ⟨_, rfl⟩

/-- C12, amended. For every sequence of `add(value, count)` calls on a fresh histogram, all
values below the initial capacity 1048576 and fewer than 2^44 objects in total, with reads of
the accessors interleaved anywhere: whenever every call returns with its array accesses inside
the allocations and `r` is the object left by a read made after the last call, the accessors
return `_numObjs` = n, the sum of the counts added; `_mean` = sum(value*count)/n for n ≥ 1; and
for n ≥ 2 `_stddev` = `sqrt` of V = sum(count*(value - mean)^2)/(n-1), so that its square is V
whenever `sqrt V` squares to V, whatever the cache held earlier.  Every call and the last read
do return when there are fewer than 1048576 objects in total. -/
theorem read_after_adds (sqrt : K → K) (ops : List op)
    (hv : ∀ p ∈ adds ops, p.1 < 1024 * 1024)
    (hN : ((adds ops).map (fun p => p.2)).sum < 2 ^ 44) :
    (∀ t r : histogramStatistics K, runChecked sqrt (new : histogramStatistics K) ops = some t →
      t.finalizeDataChecked sqrt = some r →
      r._numObjs = ((adds ops).map (fun p => p.2)).sum ∧
      (1 ≤ ((adds ops).map (fun p => p.2)).sum →
        r._mean = ((adds ops).map (fun p => (p.1 : K) * (p.2 : K))).sum
          / ((((adds ops).map (fun p => p.2)).sum : Nat) : K)) ∧
      (2 ≤ ((adds ops).map (fun p => p.2)).sum →
        r._stddev
          = sqrt (((adds ops).map (fun p => (p.2 : K) * ((p.1 : K) - r._mean) ^ 2)).sum
              / (((((adds ops).map (fun p => p.2)).sum : Nat) : K) - 1)) ∧
        (sqrt (((adds ops).map (fun p => (p.2 : K) * ((p.1 : K) - r._mean) ^ 2)).sum
              / (((((adds ops).map (fun p => p.2)).sum : Nat) : K) - 1))
          * sqrt (((adds ops).map (fun p => (p.2 : K) * ((p.1 : K) - r._mean) ^ 2)).sum
              / (((((adds ops).map (fun p => p.2)).sum : Nat) : K) - 1))
          = ((adds ops).map (fun p => (p.2 : K) * ((p.1 : K) - r._mean) ^ 2)).sum
              / (((((adds ops).map (fun p => p.2)).sum : Nat) : K) - 1) →
         r._stddev ^ 2
          = ((adds ops).map (fun p => (p.2 : K) * ((p.1 : K) - r._mean) ^ 2)).sum
              / (((((adds ops).map (fun p => p.2)).sum : Nat) : K) - 1)))) ∧
    (((adds ops).map (fun p => p.2)).sum < 1024 * 1024 →
      ∃ t r : histogramStatistics K,
        runChecked sqrt (new : histogramStatistics K) ops = some t ∧
        t.finalizeDataChecked sqrt = some r) := by
  refine ⟨?_, ?_⟩
  · intro t r ht hr
    obtain ⟨u, hu, h1, h2, h3⟩ := run_read_flat sqrt ops hv hN
    rw [runChecked_refines sqrt ops _ t ht] at hu
    cases hu
    rw [finalizeDataChecked_refines sqrt t r hr]
    exact ⟨h1, h2, h3⟩
  · intro hsmall
    obtain ⟨t, ht⟩ := runChecked_some sqrt ops hv hsmall
    obtain ⟨ha, hm, hs⟩ := run_new_shape sqrt ops t hv hN (runChecked_refines sqrt ops _ t ht)
    exact ⟨t, _, ht, finalizeDataChecked_of_small sqrt t (by omega) (by omega)⟩

/-- Witness for the amended C12: two adds, a read, and a third add; the calls and the last
read return, and the read reports the seven objects added. -/
theorem read_after_adds_witness :
    (∀ p ∈ adds [op.add 3 2, op.add 5 1, op.read, op.add 3 4], p.1 < 1024 * 1024) ∧
    ((adds [op.add 3 2, op.add 5 1, op.read, op.add 3 4]).map (fun p => p.2)).sum < 2 ^ 44 ∧
    ((adds [op.add 3 2, op.add 5 1, op.read, op.add 3 4]).map (fun p => p.2)).sum
      < 1024 * 1024 ∧
    ∃ t r : histogramStatistics ℚ,
      runChecked (fun y => y) (new : histogramStatistics ℚ)
        [op.add 3 2, op.add 5 1, op.read, op.add 3 4] = some t ∧
      t.finalizeDataChecked (fun y => y) = some r ∧
      r._numObjs = ((adds [op.add 3 2, op.add 5 1, op.read, op.add 3 4]).map (fun p => p.2)).sum := by
  have h := read_after_adds (fun y : ℚ => y) [op.add 3 2, op.add 5 1, op.read, op.add 3 4]
    (by decide) (by decide)
  obtain ⟨t, r, ht, hr⟩ := h.2 (by decide)
  exact ⟨by decide, by decide, by decide, t, r, ht, hr, (h.1 t r ht hr).1⟩

end histogramStatistics

/-! ## `histogramStatistics`: where the aggregates are not those of the values added -/

section tallies

theorem tally_append (l1 l2 : List (Nat × Nat)) (i : Nat) :
    tally (l1 ++ l2) i = tally l1 i + tally l2 i := by
  simp [tally, List.map_append, List.sum_append]

theorem tally_replicate (k v c i : Nat) :
    tally (List.replicate k (v, c)) i = if v = i then k * c else 0 := by
  by_cases h : v = i <;> simp [tally, List.map_replicate, List.sum_replicate, h]

end tallies

namespace histogramStatistics

variable {K : Type} [LinearOrderedField K]

theorem runChecked_adds (sqrt : K → K) (ps : List (Nat × Nat)) (s : histogramStatistics K) :
    runChecked sqrt s (ps.map (fun p => op.add p.1 p.2)) = s.addAllChecked ps := by
  induction ps generalizing s with
  | nil => rfl
  | cons p ps ih =>
    simp only [List.map_cons, runChecked, addAllChecked, List.foldlM_cons]
    cases s.addChecked p.1 p.2 with
    | none => rfl
    | some u => simpa [addAllChecked] using ih u

omit [LinearOrderedField K] in
theorem adds_map (ps : List (Nat × Nat)) :
    adds (ps.map (fun p => op.add p.1 p.2)) = ps := by
  induction ps with
  | nil => rfl
  | cons p ps ih => simp [adds, ih]

theorem finalizeData_numObjs (sqrt : K → K) (s : histogramStatistics K)
    (hf : s._finalized = false) :
    (s.finalizeData sqrt)._numObjs
      = (List.range (s._histogramMax + 1)).foldl (fun a ii => (a + s._histogram ii) % 2 ^ 64) 0 := by
  simp only [finalizeData, hf, clearStatistics]
  rfl

theorem finalizeData_median_eq (sqrt : K → K) (s : histogramStatistics K)
    (hf : s._finalized = false) :
    (s.finalizeData sqrt)._median
      = thresholdScan s._histogram ((s.finalizeData sqrt)._numObjs / 2)
          (List.range (s._histogramMax + 1)) 0 := by
  simp only [finalizeData, hf, clearStatistics]
  rfl

/-- Two buckets that each hold 2^63 objects: every call returns, the read is inside its arrays,
and the 64-bit object count wraps to 0. -/
theorem numObjs_wraps (sqrt : K → K) (k c : Nat) (hkc : k * c = 2 ^ 63) :
    ((List.replicate k ((0, c) : Nat × Nat) ++ List.replicate k ((1, c) : Nat × Nat)).map
        (fun p : Nat × Nat => p.2)).sum = 2 ^ 64 ∧
    ∃ t r : histogramStatistics K,
      runChecked sqrt (new : histogramStatistics K)
        ((List.replicate k ((0, c) : Nat × Nat) ++ List.replicate k ((1, c) : Nat × Nat)).map
          (fun p : Nat × Nat => op.add p.1 p.2)) = some t ∧
      t.finalizeDataChecked sqrt = some r ∧ r._numObjs = 0 := by
  have hk : k ≠ 0 := by
    intro h
    rw [h] at hkc
    norm_num at hkc
  have htal : ∀ i, tally (List.replicate k ((0, c) : Nat × Nat)
        ++ List.replicate k ((1, c) : Nat × Nat)) i
      = if i = 0 then 2 ^ 63 else if i = 1 then 2 ^ 63 else 0 := by
    intro i
    rw [tally_append, tally_replicate, tally_replicate, hkc]
    by_cases h0 : i = 0
    · subst h0; simp
    · by_cases h1 : i = 1
      · subst h1; simp
      · have a : ¬ (0 = i) := fun h => h0 h.symm
        have b : ¬ (1 = i) := fun h => h1 h.symm
        simp [h0, h1, a, b]
  have hvals : ∀ p ∈ List.replicate k ((0, c) : Nat × Nat)
        ++ List.replicate k ((1, c) : Nat × Nat),
      p.1 < (new : histogramStatistics K)._histogramAlloc := by
    intro p hp
    simp only [new, clearStatistics]
    rcases List.mem_append.1 hp with h | h
    · rw [(List.mem_replicate.1 h).2]; norm_num
    · rw [(List.mem_replicate.1 h).2]; norm_num
  obtain ⟨t, ht, htf, hta, hth, -, htp, htB⟩ :=
    addAll_tally (List.replicate k ((0, c) : Nat × Nat) ++ List.replicate k ((1, c) : Nat × Nat))
      (new : histogramStatistics K) rfl (fun p hp => le_of_lt (hvals p hp))
      (fun i => by
        rw [htal i]
        simp only [new, clearStatistics]
        split_ifs <;> norm_num)
  have hmax : t._histogramMax = 1 := by
    have h1 := htp (1, c) (List.mem_append_right _ (List.mem_replicate.2 ⟨hk, rfl⟩))
    have h2 := htB 1 (by simp [new, clearStatistics]) (fun p hp => by
      rcases List.mem_append.1 hp with h | h
      · rw [(List.mem_replicate.1 h).2]; norm_num
      · rw [(List.mem_replicate.1 h).2])
    simp only at h1
    omega
  have hh0 : t._histogram 0 = 2 ^ 63 := by
    rw [hth 0, htal 0]; simp [new, clearStatistics]
  have hh1 : t._histogram 1 = 2 ^ 63 := by
    rw [hth 1, htal 1]; simp [new, clearStatistics]
  have hr2 : List.range (1 + 1) = [0, 1] := rfl
  have hnum : (t.finalizeData sqrt)._numObjs = 0 := by
    rw [finalizeData_numObjs sqrt t htf, hmax, hr2, List.foldl_cons, List.foldl_cons,
      List.foldl_nil, hh0, hh1]
    norm_num
  have hmed : (t.finalizeData sqrt)._median = 0 := by
    rw [finalizeData_median_eq sqrt t htf, hnum, hmax, hr2]
    simp [thresholdScan]
  refine ⟨?_, t, t.finalizeData sqrt, ?_, ?_, hnum⟩
  · rw [List.map_append, List.sum_append, List.map_replicate, List.map_replicate,
      List.sum_replicate]
    show k * c + k * c = 2 ^ 64
    rw [hkc]
    norm_num
  · rw [runChecked_adds, addAllChecked_eq _ _ hvals]
    exact ht
  · have hf : ¬ t._finalized = true := by simp [htf]
    rw [finalizeDataChecked, if_neg hf, if_pos]
    refine ⟨by rw [hmax, hta]; simp [new, clearStatistics], ?_⟩
    rw [hmed, hmax, hr2, hta]
    simp [new, clearStatistics]

/-- C12, as stated, fails in two ways.  By the width of the counters: after 2^32 calls
`add(0, 2^31)` and 2^32 calls `add(1, 2^31)` (values below the capacity, 2^64 objects) every
call returns and a read reports `numberOfObjects()` = 0.  By the median scan: after the single
call `add(0, 3000000)` the scan ends without its `break`, `_median` is 3000000, and the MAD pass
of the read indexes its array of 1048576 cells out of bounds, so the read returns nothing. -/
theorem read_after_adds_not_every_sequence :
    (((List.replicate (2 ^ 32) ((0, 2 ^ 31) : Nat × Nat)
          ++ List.replicate (2 ^ 32) ((1, 2 ^ 31) : Nat × Nat)).map
        (fun p : Nat × Nat => p.2)).sum = 2 ^ 64 ∧
      ∃ t r : histogramStatistics ℚ,
        runChecked (fun y => y) (new : histogramStatistics ℚ)
          ((List.replicate (2 ^ 32) ((0, 2 ^ 31) : Nat × Nat)
            ++ List.replicate (2 ^ 32) ((1, 2 ^ 31) : Nat × Nat)).map
            (fun p : Nat × Nat => op.add p.1 p.2)) = some t ∧
        t.finalizeDataChecked (fun y => y) = some r ∧ r._numObjs = 0) ∧
    (∃ t : histogramStatistics ℚ,
      runChecked (fun y => y) (new : histogramStatistics ℚ) [op.add 0 3000000] = some t ∧
      (t.finalizeData (fun y => y))._median = 3000000 ∧
      (t.finalizeDataChecked (fun y => y)).isNone = true) :=
  ⟨numObjs_wraps (fun y : ℚ => y) (2 ^ 32) (2 ^ 31) (by norm_num),
    ⟨_, rfl, by decide, by decide⟩⟩

end histogramStatistics

/-! ## `histogramStatistics` against `genericStatistics`, with the array bounds -/

namespace histogramStatistics

variable {K : Type} [LinearOrderedField K]

theorem run_adds (sqrt : K → K) (ps : List (Nat × Nat)) (s : histogramStatistics K) :
    run sqrt s (ps.map (fun p => op.add p.1 p.2)) = s.addAll ps := by
  induction ps generalizing s with
  | nil => rfl
  | cons p ps ih =>
    simp only [List.map_cons, run, addAll, List.foldlM_cons]
    cases s.add p.1 p.2 with
    | none => rfl
    | some u => simpa [addAll] using ih u

end histogramStatistics

section equivalenceChecked

variable {K : Type} [LinearOrderedField K]

/-- C5, amended. For every finite multiset of non-negative integers below the initial capacity
1048576, given by `(value, count)` pairs with fewer than 2^44 values in total, and such that
no value is dropped by the outlier filter of `computeStdDev` (every value lies within
`[med - 5*approxStd, med + 5*approxStd]`): whenever the `add` calls and the read of the
histogram return with their array accesses inside the allocations, the `mean()` and `stddev()`
of the `histogramStatistics` fed with the pairs equal those of the `genericStatistics` fed with
each value; and the calls and the read do return when the multiset has fewer than 1048576
values. -/
theorem histogram_eq_generic_of_untrimmed (sqrt : K → K) (ps : List (Nat × Nat))
    (hv : ∀ p ∈ ps, p.1 < 1024 * 1024)
    (hN : (ps.map (fun p => p.2)).sum < 2 ^ 44)
    (hkeep : keptSample (samples ps) = samples ps) :
    (∀ t r : histogramStatistics K,
      (histogramStatistics.new : histogramStatistics K).addAllChecked ps = some t →
      t.finalizeDataChecked sqrt = some r →
      r._mean = ((genericStatistics.new : genericStatistics K).addAll (samples ps)).mean sqrt ∧
      r._stddev
        = ((genericStatistics.new : genericStatistics K).addAll (samples ps)).stddev sqrt) ∧
    ((ps.map (fun p => p.2)).sum < 1024 * 1024 →
      ∃ t r : histogramStatistics K,
        (histogramStatistics.new : histogramStatistics K).addAllChecked ps = some t ∧
        t.finalizeDataChecked sqrt = some r) := by
  have hvals : ∀ p ∈ ps, p.1 < (histogramStatistics.new : histogramStatistics K)._histogramAlloc := by
    intro p hp
    simpa [histogramStatistics.new, histogramStatistics.clearStatistics] using hv p hp
  have heq := histogramStatistics.addAllChecked_eq ps (histogramStatistics.new : histogramStatistics K) hvals
  obtain ⟨u, hu, hm, hs⟩ := histogram_eq_generic_flat sqrt ps hv hN hkeep
  refine ⟨?_, ?_⟩
  · intro t r ht hr
    rw [heq, hu] at ht
    cases ht
    rw [histogramStatistics.finalizeDataChecked_refines sqrt u r hr]
    exact ⟨hm, hs⟩
  · intro hsmall
    have hrun : histogramStatistics.run sqrt (histogramStatistics.new : histogramStatistics K)
        (ps.map (fun p => histogramStatistics.op.add p.1 p.2)) = some u := by
      rw [histogramStatistics.run_adds, hu]
    obtain ⟨ha, hmx, hsum⟩ := histogramStatistics.run_new_shape sqrt _ u
      (by rw [histogramStatistics.adds_map]; exact hv)
      (by rw [histogramStatistics.adds_map]; exact hN) hrun
    rw [histogramStatistics.adds_map] at hsum
    exact ⟨u, _, by rw [heq, hu],
      histogramStatistics.finalizeDataChecked_of_small sqrt u (by omega) (by omega)⟩

/-- Witness for the amended C5 on the counts 2:1, 4:1, 6:1: the calls and the read return and
the two classes agree. -/
theorem histogram_eq_generic_of_untrimmed_witness :
    (∀ p ∈ ([(2, 1), (4, 1), (6, 1)] : List (Nat × Nat)), p.1 < 1024 * 1024) ∧
    (([(2, 1), (4, 1), (6, 1)] : List (Nat × Nat)).map (fun p => p.2)).sum < 2 ^ 44 ∧
    keptSample (samples [(2, 1), (4, 1), (6, 1)]) = samples [(2, 1), (4, 1), (6, 1)] ∧
    (([(2, 1), (4, 1), (6, 1)] : List (Nat × Nat)).map (fun p => p.2)).sum < 1024 * 1024 ∧
    ∃ t r : histogramStatistics ℚ,
      (histogramStatistics.new : histogramStatistics ℚ).addAllChecked [(2, 1), (4, 1), (6, 1)]
        = some t ∧
      t.finalizeDataChecked (fun y => y) = some r ∧
      r._mean = ((genericStatistics.new : genericStatistics ℚ).addAll
            (samples [(2, 1), (4, 1), (6, 1)])).mean (fun y => y) ∧
      r._stddev = ((genericStatistics.new : genericStatistics ℚ).addAll
            (samples [(2, 1), (4, 1), (6, 1)])).stddev (fun y => y) := by
  have h := histogram_eq_generic_of_untrimmed (fun y : ℚ => y) [(2, 1), (4, 1), (6, 1)]
    (by decide) (by decide) (by decide)
  obtain ⟨t, r, ht, hr⟩ := h.2 (by decide)
  exact ⟨by decide, by decide, by decide, by decide, t, r, ht, hr, h.1 t r ht hr⟩

end equivalenceChecked

end Canu
